import Mathlib

/-!
Verification of the planer-mcp persistence layer and generation workflow.

The Python source is shallowly embedded: SQLAlchemy rows become Lean
structures, the SQLite database becomes an explicit `DB` value threaded
through the operations, `datetime.now()` becomes an explicit `Nat`
argument, and `json.loads`/`json.dumps` are modelled by an executable
JSON parser/printer over the fragment the program exercises (integers,
strings with the common escapes, arrays, objects, booleans, null;
floats and unicode escapes are outside the fragment and parse as
absence, which no property here depends on).
-/

/-- Task / plan status vocabulary from `models/schemas.py` (`TaskStatus`). -/
inductive TaskStatus where
  | pending
  | in_progress
  | completed
  | deleted
deriving Repr, DecidableEq, Inhabited

/-- Priority vocabulary from `models/schemas.py` (`Priority`). -/
inductive Priority where
  | low
  | medium
  | high
  | critical
deriving Repr, DecidableEq, Inhabited

/-- Plan category vocabulary from `models/schemas.py` (`PlanCategory`). -/
inductive PlanCategory where
  | project
  | personal
  | learning
  | business
  | creative
  | research
  | maintenance
  | code
  | debugging
  | backend
  | frontend
  | system_design
  | feature_development
deriving Repr, DecidableEq, Inhabited

/-- Parse a priority string as Python's `Priority(s)` would; `none` models
the `ValueError` raised for a value outside the vocabulary. -/
def priorityOfString (s : String) : Option Priority :=
  if s = "low" then some .low
  else if s = "medium" then some .medium
  else if s = "high" then some .high
  else if s = "critical" then some .critical
  else none

/-! ## JSON values and a model of Python `json.loads` / `json.dumps` -/

/-- JSON values (numbers restricted to integers, see module comment). -/
inductive Json where
  | null
  | bool (b : Bool)
  | num (n : Int)
  | str (s : String)
  | arr (elems : List Json)
  | obj (members : List (String × Json))
deriving Repr, Inhabited

/-- JSON insignificant whitespace (RFC 8259, as skipped by `json.loads`). -/
def isJsonWs (c : Char) : Bool :=
  c = ' ' ∨ c = '\t' ∨ c = '\n' ∨ c = '\r'

/-- Drop leading JSON whitespace. -/
def skipWs : List Char → List Char
  | [] => []
  | c :: cs => if isJsonWs c then skipWs cs else c :: cs

/-- The digit character for `d < 10`. -/
def digitCh (d : Nat) : Char :=
  if d = 0 then '0' else if d = 1 then '1' else if d = 2 then '2'
  else if d = 3 then '3' else if d = 4 then '4' else if d = 5 then '5'
  else if d = 6 then '6' else if d = 7 then '7' else if d = 8 then '8' else '9'

/-- Numeric value of a digit character. -/
def digitVal (c : Char) : Nat := c.toNat - '0'.toNat

/-- Split a character list into its leading run of decimal digits and the rest. -/
def takeDigits : List Char → List Char × List Char
  | [] => ([], [])
  | c :: cs =>
    if c.isDigit then
      let p := takeDigits cs
      (c :: p.1, p.2)
    else ([], c :: cs)

/-- Value of a digit run, most significant first. -/
def digitsToNat (ds : List Char) : Nat :=
  ds.foldl (fun a c => 10 * a + digitVal c) 0

/-- Parse a natural-number literal; fails if no digits, or if the literal
continues into a float/exponent form (outside the modelled fragment). -/
def parseNatLit (cs : List Char) : Option (Nat × List Char) :=
  let p := takeDigits cs
  if p.1 = [] then none
  else
    match p.2 with
    | [] => some (digitsToNat p.1, [])
    | c :: rest =>
      if c = '.' ∨ c = 'e' ∨ c = 'E' then none
      else some (digitsToNat p.1, c :: rest)

/-- Parse an integer literal with optional leading minus sign. -/
def parseNumLit (cs : List Char) : Option (Int × List Char) :=
  match cs with
  | [] => none
  | c :: rest =>
    if c = '-' then (parseNatLit rest).map (fun p => (-(p.1 : Int), p.2))
    else (parseNatLit (c :: rest)).map (fun p => ((p.1 : Int), p.2))

/-- Translation of the common JSON string escapes. -/
def escCharOf (c : Char) : Option Char :=
  if c = '"' then some '"'
  else if c = '\\' then some '\\'
  else if c = '/' then some '/'
  else if c = 'b' then some '\x08'
  else if c = 'f' then some '\x0c'
  else if c = 'n' then some '\n'
  else if c = 'r' then some '\r'
  else if c = 't' then some '\t'
  else none

/-- Parse the body of a JSON string up to the closing quote. -/
def parseStrBody : List Char → Option (List Char × List Char)
  | [] => none
  | c :: cs =>
    if c = '"' then some ([], cs)
    else if c = '\\' then
      match cs with
      | [] => none
      | e :: cs2 =>
        match escCharOf e with
        | none => none
        | some ec => (parseStrBody cs2).map (fun p => (ec :: p.1, p.2))
    else (parseStrBody cs).map (fun p => (c :: p.1, p.2))

/-- Parse a quoted object key followed by a colon. -/
def parseKeyColon (cs : List Char) : Option (String × List Char) :=
  match skipWs cs with
  | '"' :: rest =>
    match parseStrBody rest with
    | none => none
    | some p =>
      match skipWs p.2 with
      | ':' :: r2 => some (String.mk p.1, r2)
      | _ => none
  | _ => none

/-- Insert a key/value pair with Python `dict` semantics: a repeated key
replaces the earlier value in place. -/
def insertKey (kvs : List (String × Json)) (k : String) (v : Json) :
    List (String × Json) :=
  match kvs with
  | [] => [(k, v)]
  | (k0, v0) :: rest =>
    if k0 = k then (k0, v) :: rest else (k0, v0) :: insertKey rest k v

/-- Build an object from parsed members with repeated keys collapsed as
Python `dict` would collapse them. -/
def mkObj (ms : List (String × Json)) : Json :=
  Json.obj (ms.foldl (fun acc kv => insertKey acc kv.1 kv.2) [])

/-- Parser mode: a full value, the tail of an array after its first
element, or the tail of an object after its first member. -/
inductive PMode where
  | val
  | arrTail
  | objTail
deriving Repr, DecidableEq

/-- Recursive-descent JSON parser, structurally recursive on a fuel bound
(one unit of fuel is consumed per recursive step; every step first
consumes at least one input character, so `length + 1` fuel suffices).
In mode `arrTail` it returns `Json.arr` of the remaining elements, in mode
`objTail` it returns `Json.obj` of the remaining members. -/
def parseJ : Nat → PMode → List Char → Option (Json × List Char)
  | 0, _, _ => none
  | fuel + 1, .val, cs =>
    match skipWs cs with
    | [] => none
    | c :: rest =>
      if c = '"' then
        match parseStrBody rest with
        | none => none
        | some p => some (Json.str (String.mk p.1), p.2)
      else if c = '[' then
        match skipWs rest with
        | ']' :: r2 => some (Json.arr [], r2)
        | cs2 =>
          match parseJ fuel .val cs2 with
          | none => none
          | some p =>
            match parseJ fuel .arrTail p.2 with
            | some (Json.arr tail, r3) => some (Json.arr (p.1 :: tail), r3)
            | _ => none
      else if c = '{' then
        match skipWs rest with
        | '}' :: r2 => some (Json.obj [], r2)
        | cs2 =>
          match parseKeyColon cs2 with
          | none => none
          | some kp =>
            match parseJ fuel .val kp.2 with
            | none => none
            | some p =>
              match parseJ fuel .objTail p.2 with
              | some (Json.obj tail, r3) => some (mkObj ((kp.1, p.1) :: tail), r3)
              | _ => none
      else if c = 't' then
        match rest with
        | 'r' :: 'u' :: 'e' :: r2 => some (Json.bool true, r2)
        | _ => none
      else if c = 'f' then
        match rest with
        | 'a' :: 'l' :: 's' :: 'e' :: r2 => some (Json.bool false, r2)
        | _ => none
      else if c = 'n' then
        match rest with
        | 'u' :: 'l' :: 'l' :: r2 => some (Json.null, r2)
        | _ => none
      else
        match parseNumLit (c :: rest) with
        | none => none
        | some p => some (Json.num p.1, p.2)
  | fuel + 1, .arrTail, cs =>
    match skipWs cs with
    | ']' :: r2 => some (Json.arr [], r2)
    | ',' :: r2 =>
      match parseJ fuel .val r2 with
      | none => none
      | some p =>
        match parseJ fuel .arrTail p.2 with
        | some (Json.arr tail, r3) => some (Json.arr (p.1 :: tail), r3)
        | _ => none
    | _ => none
  | fuel + 1, .objTail, cs =>
    match skipWs cs with
    | '}' :: r2 => some (Json.obj [], r2)
    | ',' :: r2 =>
      match parseKeyColon r2 with
      | none => none
      | some kp =>
        match parseJ fuel .val kp.2 with
        | none => none
        | some p =>
          match parseJ fuel .objTail p.2 with
          | some (Json.obj tail, r3) => some (Json.obj ((kp.1, p.1) :: tail), r3)
          | _ => none
    | _ => none

/-- Model of Python `json.loads`: parse one JSON value and require that only
whitespace follows; `none` models the raised `JSONDecodeError`. -/
def json_loads (s : String) : Option Json :=
  let cs := s.data
  match parseJ (cs.length + 1) .val cs with
  | none => none
  | some p =>
    match skipWs p.2 with
    | [] => some p.1
    | _ => none

/-- Decimal digits of `n`, most significant first, via an explicit fuel
argument (`n < fuel` suffices) so the definition reduces in the kernel. -/
def natDigitsAux : Nat → Nat → List Char
  | 0, _ => []
  | fuel + 1, n =>
    if n < 10 then [digitCh n]
    else natDigitsAux fuel (n / 10) ++ [digitCh (n % 10)]

/-- Decimal digits of `n`, most significant first. -/
def natDigits (n : Nat) : List Char := natDigitsAux (n + 1) n

/-- Characters of Python `repr` of an integer. -/
def intReprChars (n : Int) : List Char :=
  if n < 0 then '-' :: natDigits n.natAbs else natDigits n.natAbs

/-- Characters of `json.dumps` for the elements after the first: for each
element a comma, a space and its digits, then the closing bracket. -/
def dumpsTail (xs : List Int) : List Char :=
  xs.foldr (fun y acc => ',' :: ' ' :: (intReprChars y ++ acc)) [']']

/-- Characters of Python `json.dumps` applied to a list of integers. -/
def dumpsChars (l : List Int) : List Char :=
  match l with
  | [] => ['[', ']']
  | x :: xs => '[' :: (intReprChars x ++ dumpsTail xs)

/-- Model of Python `json.dumps` on a list of integers, e.g. `"[0, 2]"`. -/
def json_dumps_int_list (l : List Int) : String := String.mk (dumpsChars l)

/-- Read a parsed JSON array of integer literals back as a list of
integers; `none` models a pydantic validation error on `List[int]`. -/
def jsonInts : List Json → Option (List Int)
  | [] => some []
  | Json.num n :: rest => (jsonInts rest).map (fun l => n :: l)
  | _ => none

/-- `json.loads` composed with the `List[int]` reading used for the
persisted `dependencies` column. -/
def json_loads_int_list (s : String) : Option (List Int) :=
  match json_loads s with
  | some (Json.arr xs) => jsonInts xs
  | _ => none

/-! ## Response Extractor (`server.py::_extract_json_from_text`) -/

/-- Python `str.strip` whitespace class (the characters the program can
encounter; `\x0b`/`\x0c` are also stripped by Python). -/
def isPySpace (c : Char) : Bool :=
  c = ' ' ∨ c = '\t' ∨ c = '\n' ∨ c = '\r' ∨ c = '\x0b' ∨ c = '\x0c'

/-- Model of Python `str.strip()`. -/
def pyStrip (s : String) : String :=
  String.mk (((s.data.dropWhile isPySpace).reverse.dropWhile isPySpace).reverse)

/-- Model of Python `str.find` for a single character: index of the first
occurrence, `none` for Python's `-1`. -/
def pyFindCh (cs : List Char) (c : Char) : Option Nat :=
  cs.findIdx? (· = c)

/-- Model of Python `str.rfind` for a single character: index of the last
occurrence, `none` for Python's `-1`. -/
def pyRFindCh (cs : List Char) (c : Char) : Option Nat :=
  match (cs.reverse.findIdx? (· = c)) with
  | none => none
  | some i => some (cs.length - 1 - i)

/-- Model of the Python slice `text[start_idx : end_idx + 1]`. -/
def pySliceIncl (cs : List Char) (start_idx end_idx : Nat) : List Char :=
  (cs.drop start_idx).take (end_idx + 1 - start_idx)

/-- The expected-shape tags, passed as strings in the source. -/
def tyArray : String := "array"

/-- The opening delimiter selected by `_extract_json_from_text`. -/
def startCharOf (expected_type : String) : Char :=
  if expected_type = tyArray then '[' else '{'

/-- The closing delimiter selected by `_extract_json_from_text`. -/
def endCharOf (expected_type : String) : Char :=
  if expected_type = tyArray then ']' else '}'

/-- Translation of `server.py::_extract_json_from_text`: strip the text; if
it starts with the expected opening delimiter try a direct `json.loads`; on
failure (or no leading delimiter) try `json.loads` on the slice from the
first opening delimiter to the last closing delimiter (only when the latter
lies strictly after the former); otherwise report absence. -/
def extract_json_from_text (text : String) (expected_type : String) : Option Json :=
  let t := pyStrip text
  let cs := t.data
  let start_char := startCharOf expected_type
  let end_char := endCharOf expected_type
  let direct : Option Json :=
    if cs.head? = some start_char then json_loads t else none
  match direct with
  | some j => some j
  | none =>
    match pyFindCh cs start_char, pyRFindCh cs end_char with
    | some start_idx, some end_idx =>
      if start_idx < end_idx then json_loads (String.mk (pySliceIncl cs start_idx end_idx))
      else none
    | _, _ => none

/-! ## Pydantic schemas (`models/schemas.py`) -/

namespace Planer

/-- The pydantic `Task` schema: optional identity and timestamps are
`none` until the store assigns them. -/
structure Task where
  id : Option Nat := none
  plan_id : Nat
  title : String
  description : Option String := none
  status : TaskStatus := .pending
  priority : Priority := .medium
  order_index : Int := 0
  dependencies : List Int := []
  created_at : Option Nat := none
  updated_at : Option Nat := none
  completed_at : Option Nat := none
deriving Repr, DecidableEq, Inhabited

/-- The pydantic `Plan` schema. -/
structure Plan where
  id : Option Nat := none
  title : String
  description : Option String := none
  category : PlanCategory
  goal : String
  status : TaskStatus := .pending
  total_tasks : Int := 0
  completed_tasks : Int := 0
  created_at : Option Nat := none
  updated_at : Option Nat := none
  tasks : List Task := []
deriving Repr, DecidableEq, Inhabited

/-! ## Persisted rows and database state (`database/models.py`) -/

/-- A row of the `plans` table. -/
structure PlanRow where
  id : Nat
  title : String
  description : Option String
  category : PlanCategory
  goal : String
  status : TaskStatus
  total_tasks : Int
  completed_tasks : Int
  created_at : Nat
  updated_at : Nat
deriving Repr, DecidableEq, Inhabited

/-- A row of the `tasks` table; `dependencies` holds the JSON-encoded
text exactly as the `Text` column does. -/
structure TaskRow where
  id : Nat
  plan_id : Nat
  title : String
  description : Option String
  status : TaskStatus
  priority : Priority
  order_index : Int
  dependencies : String
  created_at : Nat
  updated_at : Nat
  completed_at : Option Nat
deriving Repr, DecidableEq, Inhabited

/-- The SQLite database at rest: both tables plus the autoincrement
counters (SQLite hands out consecutive ids starting from 1). -/
structure DB where
  plans : List PlanRow
  tasks : List TaskRow
  next_plan_id : Nat
  next_task_id : Nat
deriving Repr, DecidableEq, Inhabited

/-- A freshly created database file. -/
def emptyDB : DB := { plans := [], tasks := [], next_plan_id := 1, next_task_id := 1 }

/-! ## Consistency Store (`database/manager.py::DatabaseManager`) -/

/-- The task rows inserted by `create_plan`'s `for i, task in enumerate`
loop: ids are consecutive from `tid0`, `order_index` is the position in
the input sequence, `dependencies` is `json.dumps` of the input list,
`completed_at` is left at its column default (never copied from the
input), both timestamps are the insertion time. -/
def mkTaskRows (pid tid0 now : Nat) : Nat → List Task → List TaskRow
  | _, [] => []
  | i, t :: ts =>
    { id := tid0 + i
      plan_id := pid
      title := t.title
      description := t.description
      status := t.status
      priority := t.priority
      order_index := (i : Int)
      dependencies := json_dumps_int_list t.dependencies
      created_at := now
      updated_at := now
      completed_at := none } :: mkTaskRows pid tid0 now (i + 1) ts

/-- The returned (detached) `Task` values: `create_plan` writes only id,
plan id and the two timestamps back into the input objects. -/
def attachTask (pid tid now : Nat) (t : Task) : Task :=
  { t with id := some tid, plan_id := pid, created_at := some now, updated_at := some now }

/-- Translation of `DatabaseManager.create_plan`: one transaction inserts
the plan row (with `total_tasks = len(tasks)` and `completed_tasks` left
at its column default 0) and one task row per input task, then returns the
input plan updated with the assigned ids, timestamps and stored counters. -/
def create_plan (db : DB) (now : Nat) (p : Plan) : DB × Plan :=
  let pid := db.next_plan_id
  let planRow : PlanRow :=
    { id := pid
      title := p.title
      description := p.description
      category := p.category
      goal := p.goal
      status := p.status
      total_tasks := (p.tasks.length : Int)
      completed_tasks := 0
      created_at := now
      updated_at := now }
  let taskRows := mkTaskRows pid db.next_task_id now 0 p.tasks
  let created :=
    (p.tasks.zip (List.range p.tasks.length)).map
      (fun q => attachTask pid (db.next_task_id + q.2) now q.1)
  let db' : DB :=
    { plans := db.plans ++ [planRow]
      tasks := db.tasks ++ taskRows
      next_plan_id := pid + 1
      next_task_id := db.next_task_id + p.tasks.length }
  let p' : Plan :=
    { p with
      id := some pid
      created_at := some now
      updated_at := some now
      total_tasks := planRow.total_tasks
      completed_tasks := planRow.completed_tasks
      tasks := created }
  (db', p')

/-- Decode the persisted `dependencies` text as `get_plan` does:
`json.loads(...) if task_model.dependencies else []`; `none` models the
exception a corrupted column would raise. -/
def decodeDeps (s : String) : Option (List Int) :=
  if s = "" then some [] else json_loads_int_list s

/-- Rebuild detached `Task` values from rows, propagating a decoding
failure. -/
def rowsToTasks : List TaskRow → Option (List Task)
  | [] => some []
  | r :: rs =>
    match decodeDeps r.dependencies with
    | none => none
    | some deps =>
      match rowsToTasks rs with
      | none => none
      | some ts =>
        some ({ id := some r.id
                plan_id := r.plan_id
                title := r.title
                description := r.description
                status := r.status
                priority := r.priority
                order_index := r.order_index
                dependencies := deps
                created_at := some r.created_at
                updated_at := some r.updated_at
                completed_at := r.completed_at } :: ts)

/-- The `ORDER BY order_index` relation used by `get_plan`. -/
def taskIdxLe (a b : TaskRow) : Prop := a.order_index ≤ b.order_index

instance : DecidableRel taskIdxLe := fun a b => Int.decLe a.order_index b.order_index

instance : IsTotal TaskRow taskIdxLe := ⟨fun a b => Int.le_total a.order_index b.order_index⟩

instance : IsTrans TaskRow taskIdxLe :=
  ⟨fun _ _ _ hab hbc => le_trans hab hbc⟩

/-- Translation of `DatabaseManager.get_plan`: the first plan row with the
requested id, with its task rows in `order_index` order re-encoded as
detached `Task` values. -/
def get_plan (db : DB) (pid : Nat) : Option Plan :=
  match db.plans.find? (fun p => p.id == pid) with
  | none => none
  | some pm =>
    let rows := (db.tasks.filter (fun t => t.plan_id == pid)).insertionSort taskIdxLe
    match rowsToTasks rows with
    | none => none
    | some ts =>
      some { id := some pm.id
             title := pm.title
             description := pm.description
             category := pm.category
             goal := pm.goal
             status := pm.status
             total_tasks := pm.total_tasks
             completed_tasks := pm.completed_tasks
             created_at := some pm.created_at
             updated_at := some pm.updated_at
             tasks := ts }

/-- The `ORDER BY updated_at DESC` relation used by `get_all_plans`. -/
def planUpdDesc (a b : PlanRow) : Prop := b.updated_at ≤ a.updated_at

instance : DecidableRel planUpdDesc := fun a b => Nat.decLe b.updated_at a.updated_at

instance : IsTotal PlanRow planUpdDesc :=
  ⟨fun a b => Nat.le_total b.updated_at a.updated_at⟩

instance : IsTrans PlanRow planUpdDesc :=
  ⟨fun _ _ _ hab hbc => le_trans hbc hab⟩

/-- The active-plans filter of `get_all_plans`:
`total_tasks == 0 OR completed_tasks < total_tasks`. -/
def activeFilter (p : PlanRow) : Bool :=
  p.total_tasks == 0 || p.completed_tasks < p.total_tasks

/-- Translation of `DatabaseManager.get_all_plans`: filter (unless
`include_completed`), order by `updated_at` descending, then apply
`OFFSET (page-1)*page_size LIMIT page_size` (tasks are omitted from the
summaries, which we model by returning the plan rows themselves). -/
def get_all_plans (db : DB) (include_completed : Bool) (page : Nat) (page_size : Nat) :
    List PlanRow :=
  let base := if include_completed then db.plans else db.plans.filter activeFilter
  let ordered := base.insertionSort planUpdDesc
  ((ordered.drop ((page - 1) * page_size)).take page_size)

/-- Overwrite the first plan row with the given id (SQLAlchemy `.first()`
followed by attribute mutation touches exactly one row). -/
def updateFirstPlan (pid : Nat) (f : PlanRow → PlanRow) : List PlanRow → List PlanRow
  | [] => []
  | p :: ps => if p.id = pid then f p :: ps else p :: updateFirstPlan pid f ps

/-- Translation of `DatabaseManager._update_plan_progress`: count the
plan's task rows excluding status `deleted` (`total`), count among those
the `completed` ones, write both counters and a fresh `updated_at` into
the plan row (if it exists). -/
def update_plan_progress (now : Nat) (pid : Nat) (db : DB) : DB :=
  let relevant := db.tasks.filter
    (fun t => t.plan_id == pid && !(t.status == TaskStatus.deleted))
  let total : Int := (relevant.length : Int)
  let completed : Int :=
    ((relevant.filter (fun t => t.status == TaskStatus.completed)).length : Int)
  { db with
    plans := updateFirstPlan pid
      (fun p => { p with total_tasks := total, completed_tasks := completed,
                         updated_at := now }) db.plans }

/-- Translation of `DatabaseManager.update_task_status`. `update_time`
models the single `datetime.now()` taken for the batch, `progress_time`
the later `datetime.now()` taken inside `_update_plan_progress`. If no
row matches the requested ids, nothing changes and `false` is returned;
otherwise each matched row gets the new status, `updated_at :=
update_time` and (only when the new status is `completed`) `completed_at
:= update_time`, then every distinct touched plan is recomputed. -/
def update_task_status (db : DB) (update_time progress_time : Nat)
    (task_ids : List Nat) (status : TaskStatus) : DB × Bool :=
  let affected := db.tasks.filter (fun t => task_ids.contains t.id)
  if affected.isEmpty then (db, false)
  else
    let tasks' := db.tasks.map (fun t =>
      if task_ids.contains t.id then
        { t with
          status := status
          updated_at := update_time
          completed_at :=
            if status == TaskStatus.completed then some update_time else t.completed_at }
      else t)
    let affected_plan_ids := (affected.map (fun t => t.plan_id)).dedup
    let db1 : DB := { db with tasks := tasks' }
    (affected_plan_ids.foldl (fun d pid => update_plan_progress progress_time pid d) db1,
     true)

/-- Python truthiness of `scalar() or -1` in `add_tasks_to_plan`: `None`
and the (falsy) maximum `0` both collapse to `-1`. -/
def pyMaxOrNeg1 (m : Option Int) : Int :=
  match m with
  | none => -1
  | some v => if v = 0 then -1 else v

/-- Maximum `order_index` among a plan's task rows, `none` when it has no
rows (the SQL `MAX` aggregate). -/
def maxOrderIndex (db : DB) (pid : Nat) : Option Int :=
  ((db.tasks.filter (fun t => t.plan_id == pid)).map (fun t => t.order_index)).max?

/-- The task rows inserted by `add_tasks_to_plan`'s loop: `order_index`
continues from `max_index + 1`. -/
def mkAddedRows (pid tid0 now : Nat) (max_index : Int) : Nat → List Task → List TaskRow
  | _, [] => []
  | i, t :: ts =>
    { id := tid0 + i
      plan_id := pid
      title := t.title
      description := t.description
      status := t.status
      priority := t.priority
      order_index := max_index + 1 + (i : Int)
      dependencies := json_dumps_int_list t.dependencies
      created_at := now
      updated_at := now
      completed_at := none } :: mkAddedRows pid tid0 now max_index (i + 1) ts

/-- Translation of `DatabaseManager.add_tasks_to_plan`: append the rows,
recompute the owning plan's counters, return `true` unconditionally (no
existence check on the plan id is performed). -/
def add_tasks_to_plan (db : DB) (now progress_time : Nat) (pid : Nat)
    (new_tasks : List Task) : DB × Bool :=
  let max_index := pyMaxOrNeg1 (maxOrderIndex db pid)
  let db1 : DB :=
    { db with
      tasks := db.tasks ++ mkAddedRows pid db.next_task_id now max_index 0 new_tasks
      next_task_id := db.next_task_id + new_tasks.length }
  (update_plan_progress progress_time pid db1, true)

/-- Python truthiness of the `title` argument in `update_plan_info`:
`None` and the empty string are both falsy, so only a non-empty supplied
title overwrites the stored one. -/
def pyTruthyOptStr (s : Option String) : Bool :=
  match s with
  | none => false
  | some v => !(v == "")

/-- Translation of `DatabaseManager.update_plan_info`: `false` (no
change) when the plan id does not exist; otherwise overwrite the title
only when the supplied title is truthy, overwrite the description
whenever one is supplied (including the empty string), and bump
`updated_at`. -/
def update_plan_info (db : DB) (now : Nat) (pid : Nat)
    (title description : Option String) : DB × Bool :=
  match db.plans.find? (fun p => p.id == pid) with
  | none => (db, false)
  | some _ =>
    let f := fun (p : PlanRow) =>
      let p1 := if pyTruthyOptStr title then { p with title := title.getD p.title } else p
      let p2 := if description.isSome then { p1 with description := description } else p1
      { p2 with updated_at := now }
    ({ db with plans := updateFirstPlan pid f db.plans }, true)

/-- Translation of `DatabaseManager.delete_plan`: `false` when the plan
id does not exist; otherwise remove the plan row and (by the relationship
cascade) every task row owned by it. -/
def delete_plan (db : DB) (pid : Nat) : DB × Bool :=
  match db.plans.find? (fun p => p.id == pid) with
  | none => (db, false)
  | some _ =>
    ({ db with
       plans := db.plans.eraseP (fun p => p.id == pid)
       tasks := db.tasks.filter (fun t => !(t.plan_id == pid)) }, true)

/-! ## Store invariants (spec section 8) -/

/-- Number of the plan's task rows whose status is not `deleted`. -/
def nonDeletedCount (db : DB) (pid : Nat) : Int :=
  (((db.tasks.filter
      (fun t => t.plan_id == pid && !(t.status == TaskStatus.deleted))).length : Nat) : Int)

/-- The at-rest aggregate invariant: for every plan row,
`0 ≤ completed_tasks ≤ total_tasks` and `total_tasks` equals the count of
the plan's non-deleted task rows. -/
def planInv (db : DB) : Prop :=
  ∀ p ∈ db.plans,
    0 ≤ p.completed_tasks ∧ p.completed_tasks ≤ p.total_tasks ∧
    p.total_tasks = nonDeletedCount db p.id

/-- Structural well-formedness maintained by the store: ids are below the
autoincrement counters, task rows reference only already-allocated plan
ids, and ids are unique per table. -/
def dbWF (db : DB) : Prop :=
  (∀ p ∈ db.plans, p.id < db.next_plan_id) ∧
  (∀ t ∈ db.tasks, t.id < db.next_task_id) ∧
  (∀ t ∈ db.tasks, t.plan_id < db.next_plan_id) ∧
  (db.plans.map (fun p => p.id)).Nodup ∧
  (db.tasks.map (fun t => t.id)).Nodup

instance (db : DB) : Decidable (planInv db) := by
  unfold planInv; infer_instance

instance (db : DB) : Decidable (dbWF db) := by
  unfold dbWF; infer_instance

/-! ## Task Materializer and Generation Orchestrator (`server.py`) -/

/-- Python `dict.get` on a parsed JSON value (absent on non-objects; the
parser already collapses duplicate keys as `dict` does). -/
def jget (j : Json) (k : String) : Option Json :=
  match j with
  | .obj kvs => (kvs.find? (fun kv => kv.1 == k)).map (fun kv => kv.2)
  | _ => none

/-- Characters of the f-string `f"Task {order_index + 1}"`. -/
def placeholderTitle (order_index : Nat) : String :=
  String.mk (("Task ").data ++ natDigits (order_index + 1))

/-- Translation of `server.py::_create_task_from_dict`: title falls back
to a positional placeholder, priority defaults to `medium` on any missing
or unrecognized value, `order_index` is the position in the generated
sequence, dependencies pass through. -/
def create_task_from_dict (td : Json) (order_index : Nat) (plan_id : Nat) : Task :=
  { plan_id := plan_id
    title :=
      match jget td ("title") with
      | some (Json.str s) => s
      | _ => placeholderTitle order_index
    description :=
      match jget td ("description") with
      | some (Json.str s) => some s
      | _ => none
    status := .pending
    priority :=
      match jget td ("priority") with
      | some (Json.str s) => (priorityOfString s).getD Priority.medium
      | some _ => Priority.medium
      | none => Priority.medium
    order_index := (order_index : Int)
    dependencies :=
      match jget td ("dependencies") with
      | some (Json.arr xs) => (jsonInts xs).getD []
      | _ => [] }

/-- The validity check of a generation attempt
(`tasks_data and isinstance(tasks_data, list) and len(tasks_data) > 0`):
extraction must yield a non-empty array. -/
def extractTasksData (resp : String) : Option (List Json) :=
  match extract_json_from_text resp tyArray with
  | some (Json.arr l) => if 0 < l.length then some l else none
  | _ => none

/-- `tasks = [_create_task_from_dict(task_dict, i) for i, task_dict in
enumerate(tasks_data)]` (the detached candidate tasks carry `plan_id = 0`). -/
def materializeTasks (l : List Json) : List Task :=
  l.enum.map (fun q => create_task_from_dict q.2 q.1 0)

/-- The retry bound of the generation loop. -/
def max_retries : Nat := 3

/-- The clause appended to the planning instruction before a retry. -/
def strengthClause : String :=
  "\n\nIMPORTANT: You MUST respond with ONLY a valid JSON array of task objects. No explanations, no markdown, just the JSON array."

/-- `str(e)` of the `ValueError` raised when the last attempt is invalid. -/
def genValueErrorMsg : String :=
  "LLM failed to generate valid task list after multiple attempts"

/-- Outcome of the generation stage: the extracted task array together
with the instruction in force at success, or the last error; `attempts`
counts the calls made to the generative service. -/
inductive GenResult where
  | ok (tasks_data : List Json) (prompt : String) (attempts : Nat)
  | fail (lastError : String) (attempts : Nat)
deriving Repr, Inhabited

/-- The `for attempt in range(max_retries)` loop of `new_plan`,
structurally recursive on `remaining = max_retries - attempt`. The
generative service (`sample`) receives the attempt index and the
instruction in force, since the instruction is the content of the message
sent to it. A valid extraction breaks out; an invalid one strengthens the
instruction and retries while `attempt < max_retries - 1` (`remaining ≠ 0`
here), and on the last attempt raises the `ValueError` that the handler
converts into the terminal failure. The fuel-exhausted base case is
unreachable from `generation_stage`. -/
def gen_run (sample : Nat → String → String) : Nat → String → Nat → GenResult
  | attempt, _, 0 => GenResult.fail genValueErrorMsg attempt
  | attempt, prompt, remaining + 1 =>
    match extractTasksData (sample attempt prompt) with
    | some l => GenResult.ok l prompt (attempt + 1)
    | none =>
      if remaining = 0 then GenResult.fail genValueErrorMsg (attempt + 1)
      else gen_run sample (attempt + 1) (prompt ++ strengthClause) remaining

/-- The generation stage of `new_plan`, started at attempt 0 with the
category-specific planning instruction. -/
def generation_stage (sample : Nat → String → String) (planning_prompt : String) :
    GenResult :=
  gen_run sample 0 planning_prompt max_retries

/-- The instruction in force at a given attempt index when every earlier
attempt was invalid: the original instruction followed by one JSON-only
demand per completed retry. -/
def promptAt (p0 : String) : Nat → String
  | 0 => p0
  | i + 1 => promptAt p0 i ++ strengthClause

/-- The user-visible terminal failure message of the generation stage,
with `max_retries` and `str(e)` interpolated. -/
def genFailUserMessage (e : String) : String :=
  "❌ Failed to generate plan: LLM could not produce valid task breakdown after 3 attempts.\n\nError: "
    ++ e
    ++ "\n\nPlease try again with more specific details or contact support if the issue persists."

/-- Model of Python `str.lower` on the ASCII range. -/
def pyLower (s : String) : String := String.mk (s.data.map Char.toLower)

/-- Substring containment, Python's `needle in hay`. -/
def strContains (hay needle : String) : Bool :=
  hay.data.tails.any (fun t => needle.data.isPrefixOf t)

/-- The three elicitation outcomes of the FastMCP channel. -/
inductive ElicitAction where
  | accept
  | decline
  | cancel
deriving Repr, DecidableEq, Inhabited

/-- An elicitation reply: an action plus the free text carried by an
accepted reply (`none` models Python `None`). -/
structure ElicitResult where
  action : ElicitAction
  data : Option String
deriving Repr, DecidableEq, Inhabited

/-- What the preview-confirmation step decides to do next. -/
inductive PreviewDecision where
  | cancelled
  | save
  | regenerate (feedback : String)
deriving Repr, DecidableEq, Inhabited

/-- Translation of the confirmation handling in `new_plan` (lines
242-253): an elicitation-level cancel, or an accepted reply containing
"cancel" or "abort" or equal to "no" (after lowercasing), cancels; an
accepted reply without "yes" and longer than 10 characters triggers
regeneration; everything else (including a declined elicitation) falls
through to saving. -/
def preview_decision (er : ElicitResult) : PreviewDecision :=
  if er.action = .cancel then .cancelled
  else if er.action = .accept then
    let ur := pyLower (er.data.getD "")
    if strContains ur ("cancel") || strContains ur ("abort") || ur = "no" then .cancelled
    else if !(strContains ur ("yes")) && ur.length > 10 then .regenerate ur
    else .save
  else .save

/-- The caller-supplied plan fields of `new_plan`. -/
structure PlanFields where
  title : String
  description : Option String
  category : PlanCategory
  goal : String
deriving Repr, DecidableEq, Inhabited

/-- The candidate plan assembled before the preview (lines 215-224). -/
def mkCandidatePlan (pf : PlanFields) (tasks : List Task) : Plan :=
  { title := pf.title
    description := pf.description
    category := pf.category
    goal := pf.goal
    status := .pending
    total_tasks := (tasks.length : Int)
    completed_tasks := 0
    tasks := tasks }

/-- The one-shot regeneration (lines 271-288): `none` models a raised
sampling exception; a response whose extraction yields a (truthy, hence
non-empty) array replaces the candidate task set, anything else keeps
the pre-regeneration tasks. This path never fails the workflow. -/
def regen_step (tasks : List Task) (regen : Option String) : List Task :=
  match regen with
  | none => tasks
  | some resp =>
    match extract_json_from_text resp tyArray with
    | some (Json.arr l) => if 0 < l.length then materializeTasks l else tasks
    | _ => tasks

/-- Terminal outcome of a `new_plan` invocation. -/
inductive NewPlanOutcome where
  | genFailed (msg : String)
  | noTasks
  | cancelled
  | committed (plan : Plan)
deriving Repr, DecidableEq, Inhabited

/-- The preview-and-commit tail of `new_plan`: decide from the
confirmation reply, then either stop with no store mutation or commit
the (possibly regenerated) candidate through `create_plan`. -/
def after_preview (db : DB) (now : Nat) (pf : PlanFields) (tasks : List Task)
    (er : ElicitResult) (regen : Option String) : DB × NewPlanOutcome :=
  match preview_decision er with
  | .cancelled => (db, .cancelled)
  | .save =>
    let r := create_plan db now (mkCandidatePlan pf tasks)
    (r.1, .committed r.2)
  | .regenerate _ =>
    let tasks2 := regen_step tasks regen
    let r := create_plan db now (mkCandidatePlan pf tasks2)
    (r.1, .committed r.2)

/-- The `new_plan` pipeline after the (fail-open) analysis phase:
generation with bounded retries, materialization, preview confirmation,
optional one-shot regeneration, commit. The database is returned
unchanged on every non-committed outcome. -/
def new_plan_flow (db : DB) (now : Nat) (pf : PlanFields)
    (sample : Nat → String → String) (planning_prompt : String)
    (er : ElicitResult) (regen : Option String) : DB × NewPlanOutcome :=
  match generation_stage sample planning_prompt with
  | GenResult.fail e _ => (db, .genFailed (genFailUserMessage e))
  | GenResult.ok tasks_data _ _ =>
    let tasks := materializeTasks tasks_data
    if tasks.isEmpty then (db, .noTasks)
    else after_preview db now pf tasks er regen

/-! ## Round trip of the `dependencies` encoding -/

theorem digitCh_isDigit {d : Nat} (h : d < 10) : (digitCh d).isDigit = true := by
  interval_cases d <;> decide

theorem digitVal_digitCh {d : Nat} (h : d < 10) : digitVal (digitCh d) = d := by
  interval_cases d <;> decide

theorem natDigitsAux_ne_nil {fuel n : Nat} (h : n < fuel) : natDigitsAux fuel n ≠ [] := by
  cases fuel with
  | zero => omega
  | succ f =>
    unfold natDigitsAux
    split
    · simp
    · simp

theorem natDigitsAux_digits {fuel n : Nat} (h : n < fuel) :
    ∀ c ∈ natDigitsAux fuel n, c.isDigit = true := by
  induction fuel generalizing n with
  | zero => omega
  | succ f ih =>
    unfold natDigitsAux
    split
    · next h10 =>
      intro c hc
      simp only [List.mem_singleton] at hc
      subst hc
      exact digitCh_isDigit h10
    · next h10 =>
      intro c hc
      rcases List.mem_append.mp hc with h1 | h2
      · exact ih (by omega) c h1
      · simp only [List.mem_singleton] at h2
        subst h2
        exact digitCh_isDigit (Nat.mod_lt _ (by omega))

theorem digitsToNat_append_one (ds : List Char) (c : Char) :
    digitsToNat (ds ++ [c]) = 10 * digitsToNat ds + digitVal c := by
  simp [digitsToNat, List.foldl_append]

theorem natDigitsAux_val {fuel n : Nat} (h : n < fuel) :
    digitsToNat (natDigitsAux fuel n) = n := by
  induction fuel generalizing n with
  | zero => omega
  | succ f ih =>
    unfold natDigitsAux
    split
    · next h10 =>
      simp [digitsToNat, digitVal_digitCh h10]
    · next h10 =>
      rw [digitsToNat_append_one, ih (by omega), digitVal_digitCh (Nat.mod_lt _ (by omega))]
      omega

theorem natDigits_ne_nil (n : Nat) : natDigits n ≠ [] :=
  natDigitsAux_ne_nil (Nat.lt_succ_self n)

theorem natDigits_digits (n : Nat) : ∀ c ∈ natDigits n, c.isDigit = true :=
  natDigitsAux_digits (Nat.lt_succ_self n)

theorem natDigits_val (n : Nat) : digitsToNat (natDigits n) = n :=
  natDigitsAux_val (Nat.lt_succ_self n)

/-- A character that legitimately ends an integer literal inside a
`json.dumps` output: not a digit and not a float/exponent continuation. -/
def stopCh (c : Char) : Prop := c.isDigit = false ∧ c ≠ '.' ∧ c ≠ 'e' ∧ c ≠ 'E'

theorem takeDigits_append {ds rest : List Char}
    (hds : ∀ c ∈ ds, c.isDigit = true)
    (hrest : ∀ c, rest.head? = some c → c.isDigit = false) :
    takeDigits (ds ++ rest) = (ds, rest) := by
  induction ds with
  | nil =>
    simp only [List.nil_append]
    cases rest with
    | nil => rfl
    | cons c cs =>
      have := hrest c rfl
      simp [takeDigits, this]
  | cons d ds ih =>
    have hd : d.isDigit = true := hds d (by simp)
    have ih' := ih (fun c hc => hds c (by simp [hc]))
    simp only [List.cons_append, takeDigits, hd, if_true, List.append_eq, ih']

theorem parseNatLit_digits (n : Nat) (rest : List Char)
    (hrest : ∀ c, rest.head? = some c → stopCh c) :
    parseNatLit (natDigits n ++ rest) = some (n, rest) := by
  unfold parseNatLit
  rw [takeDigits_append (natDigits_digits n)
    (fun c hc => ((hrest c hc).1))]
  simp only [natDigits_ne_nil n, if_false]
  cases rest with
  | nil => simp [natDigits_val]
  | cons c cs =>
    have hs := hrest c rfl
    have : ¬(c = '.' ∨ c = 'e' ∨ c = 'E') := by
      rintro (h | h | h)
      · exact hs.2.1 h
      · exact hs.2.2.1 h
      · exact hs.2.2.2 h
    simp [this, natDigits_val]

theorem intReprChars_head (n : Int) :
    ∃ c tl, intReprChars n = c :: tl ∧ (c = '-' ∨ c.isDigit = true) := by
  unfold intReprChars
  split
  · exact ⟨'-', natDigits n.natAbs, rfl, Or.inl rfl⟩
  · obtain ⟨c, tl, h⟩ := List.exists_cons_of_ne_nil (natDigits_ne_nil n.natAbs)
    refine ⟨c, tl, h, Or.inr ?_⟩
    exact natDigits_digits n.natAbs c (h ▸ List.mem_cons_self c tl)

theorem parseNumLit_intRepr (n : Int) (rest : List Char)
    (hrest : ∀ c, rest.head? = some c → stopCh c) :
    parseNumLit (intReprChars n ++ rest) = some (n, rest) := by
  unfold intReprChars
  split
  · next hneg =>
    simp only [List.cons_append, parseNumLit, if_pos]
    rw [parseNatLit_digits n.natAbs rest hrest]
    simp only [Option.map_some']
    have hval : -((n.natAbs : Int)) = n := by omega
    rw [hval]
  · next hpos =>
    obtain ⟨c, tl, hEq⟩ := List.exists_cons_of_ne_nil (natDigits_ne_nil n.natAbs)
    have hcd : c.isDigit = true :=
      natDigits_digits n.natAbs c (hEq ▸ List.mem_cons_self c tl)
    have hcm : ¬(c = '-') := by
      intro h
      subst h
      exact absurd hcd (by decide)
    rw [hEq]
    simp only [List.cons_append, parseNumLit, if_neg hcm]
    rw [← List.cons_append, ← hEq, parseNatLit_digits n.natAbs rest hrest]
    simp only [Option.map_some']
    have hval : ((n.natAbs : Int)) = n := by omega
    rw [hval]

theorem isDigit_not_ws {c : Char} (h : c.isDigit = true) : isJsonWs c = false := by
  by_contra hc
  have hw : isJsonWs c = true := by
    cases hb : isJsonWs c
    · exact absurd hb hc
    · rfl
  simp only [isJsonWs, decide_eq_true_eq] at hw
  rcases hw with h1 | h1 | h1 | h1 <;> subst h1 <;> exact absurd h (by decide)

theorem skipWs_of_head {cs : List Char}
    (h : ∀ c, cs.head? = some c → isJsonWs c = false) : skipWs cs = cs := by
  cases cs with
  | nil => rfl
  | cons c cs' => simp [skipWs, h c rfl]

theorem numStart_ne {c : Char} (hc : c = '-' ∨ c.isDigit = true) :
    c ≠ '"' ∧ c ≠ '[' ∧ c ≠ '{' ∧ c ≠ 't' ∧ c ≠ 'f' ∧ c ≠ 'n' := by
  rcases hc with h | h
  · subst h
    exact ⟨by decide, by decide, by decide, by decide, by decide, by decide⟩
  · refine ⟨?_, ?_, ?_, ?_, ?_, ?_⟩ <;> (intro he; subst he; exact absurd h (by decide))

theorem numStart_not_ws {c : Char} (hc : c = '-' ∨ c.isDigit = true) :
    isJsonWs c = false := by
  rcases hc with h | h
  · subst h; decide
  · exact isDigit_not_ws h

theorem parseJ_num (f : Nat) (cs rest : List Char) (n : Int)
    (hsw : skipWs cs = intReprChars n ++ rest)
    (hrest : ∀ c, rest.head? = some c → stopCh c) :
    parseJ (f + 1) .val cs = some (Json.num n, rest) := by
  obtain ⟨c, tl, hEq, hc⟩ := intReprChars_head n
  obtain ⟨h1, h2, h3, h4, h5, h6⟩ := numStart_ne hc
  have hnum : parseNumLit (c :: (tl ++ rest)) = some (n, rest) := by
    have := parseNumLit_intRepr n rest hrest
    rwa [hEq, List.cons_append] at this
  simp only [parseJ]
  rw [hsw, hEq]
  simp only [List.cons_append, if_neg h1, if_neg h2, if_neg h3, if_neg h4, if_neg h5,
    if_neg h6]
  rw [hnum]

theorem dumpsTail_head_stop (xs : List Int) :
    ∀ c, (dumpsTail xs).head? = some c → stopCh c := by
  cases xs with
  | nil =>
    intro c hc
    have : dumpsTail ([] : List Int) = [']'] := rfl
    rw [this] at hc
    simp only [List.head?_cons, Option.some.injEq] at hc
    subst hc
    exact ⟨by decide, by decide, by decide, by decide⟩
  | cons y ys =>
    intro c hc
    have : dumpsTail (y :: ys) = ',' :: ' ' :: (intReprChars y ++ dumpsTail ys) := rfl
    rw [this] at hc
    simp only [List.head?_cons, Option.some.injEq] at hc
    subst hc
    exact ⟨by decide, by decide, by decide, by decide⟩

theorem skipWs_intRepr (n : Int) (rest : List Char) :
    skipWs (intReprChars n ++ rest) = intReprChars n ++ rest := by
  obtain ⟨c, tl, hEq, hc⟩ := intReprChars_head n
  rw [hEq, List.cons_append]
  simp [skipWs, numStart_not_ws hc]

theorem parseJ_dumpsTail : ∀ (xs : List Int) (f : Nat), xs.length + 1 ≤ f →
    parseJ f .arrTail (dumpsTail xs) = some (Json.arr (xs.map Json.num), []) := by
  intro xs
  induction xs with
  | nil =>
    intro f hf
    match f, hf with
    | f' + 1, _ =>
      have : dumpsTail ([] : List Int) = [']'] := rfl
      rw [this]
      simp [parseJ, skipWs, isJsonWs]
  | cons y ys ih =>
    intro f hf
    match f, hf with
    | f' + 1, hf =>
      have hlen : ys.length + 1 ≤ f' := by
        simp only [List.length_cons] at hf
        omega
      obtain ⟨f'', hf''⟩ : ∃ f'', f' = f'' + 1 := ⟨f' - 1, by omega⟩
      have hd : dumpsTail (y :: ys) = ',' :: ' ' :: (intReprChars y ++ dumpsTail ys) := rfl
      rw [hd]
      simp only [parseJ]
      rw [show skipWs (',' :: ' ' :: (intReprChars y ++ dumpsTail ys))
            = ',' :: (' ' :: (intReprChars y ++ dumpsTail ys)) from by
          simp [skipWs, isJsonWs]]
      have hval : parseJ f' .val (' ' :: (intReprChars y ++ dumpsTail ys))
          = some (Json.num y, dumpsTail ys) := by
        rw [hf'']
        refine parseJ_num f'' _ _ y ?_ (dumpsTail_head_stop ys)
        rw [show skipWs (' ' :: (intReprChars y ++ dumpsTail ys))
              = skipWs (intReprChars y ++ dumpsTail ys) from by simp [skipWs, isJsonWs]]
        exact skipWs_intRepr y (dumpsTail ys)
      have htail : parseJ f' .arrTail (dumpsTail ys)
          = some (Json.arr (ys.map Json.num), []) := ih f' hlen
      simp [hval, htail]

theorem parseJ_dumpsChars (l : List Int) (f : Nat) (hf : l.length + 2 ≤ f) :
    parseJ f .val (dumpsChars l) = some (Json.arr (l.map Json.num), []) := by
  match f, hf with
  | f' + 1, hf =>
    cases l with
    | nil =>
      have hd : dumpsChars ([] : List Int) = ['[', ']'] := rfl
      rw [hd]
      simp [parseJ, skipWs, isJsonWs]
    | cons x xs =>
      have hlen : xs.length + 2 ≤ f' := by
        simp only [List.length_cons] at hf
        omega
      obtain ⟨f'', hf''⟩ : ∃ f'', f' = f'' + 1 := ⟨f' - 1, by omega⟩
      have hd : dumpsChars (x :: xs) = '[' :: (intReprChars x ++ dumpsTail xs) := rfl
      rw [hd]
      simp only [parseJ]
      rw [show skipWs ('[' :: (intReprChars x ++ dumpsTail xs))
            = '[' :: (intReprChars x ++ dumpsTail xs) from by simp [skipWs, isJsonWs]]
      obtain ⟨c, tl, hEq, hc⟩ := intReprChars_head x
      have hcne : c ≠ ']' := by
        rcases hc with h | h
        · subst h; decide
        · intro he; subst he; exact absurd h (by decide)
      have hval : parseJ f' .val (c :: (tl ++ dumpsTail xs))
          = some (Json.num x, dumpsTail xs) := by
        rw [hf'']
        refine parseJ_num f'' _ _ x ?_ (dumpsTail_head_stop xs)
        rw [← List.cons_append, ← hEq]
        exact skipWs_intRepr x (dumpsTail xs)
      have htail : parseJ f' .arrTail (dumpsTail xs)
          = some (Json.arr (xs.map Json.num), []) :=
        parseJ_dumpsTail xs f' (by omega)
      split
      · next heq => simp at heq
      · next c0 rest0 heq =>
        injection heq with h1 h2
        subst h1
        subst h2
        rw [if_neg (by decide : ¬('[' = '"')), if_pos rfl]
        rw [skipWs_intRepr x (dumpsTail xs), hEq, List.cons_append]
        split
        · next heq2 =>
          injection heq2 with h3 h4
          exact absurd h3 hcne
        · rw [hval]
          simp [htail]

theorem dumpsTail_length (xs : List Int) : xs.length + 1 ≤ (dumpsTail xs).length := by
  induction xs with
  | nil => decide
  | cons y ys ih =>
    have hd : dumpsTail (y :: ys) = ',' :: ' ' :: (intReprChars y ++ dumpsTail ys) := rfl
    rw [hd]
    simp only [List.length_cons, List.length_append]
    omega

theorem dumpsChars_length (l : List Int) : l.length + 1 ≤ (dumpsChars l).length := by
  cases l with
  | nil => decide
  | cons x xs =>
    have hd : dumpsChars (x :: xs) = '[' :: (intReprChars x ++ dumpsTail xs) := rfl
    rw [hd]
    have := dumpsTail_length xs
    simp only [List.length_cons, List.length_append]
    omega

/-- The persisted `dependencies` text decodes back to the encoded list:
`json.loads (json.dumps l)` recovers `l`. -/
theorem json_loads_dumps (l : List Int) :
    json_loads (json_dumps_int_list l) = some (Json.arr (l.map Json.num)) := by
  unfold json_loads json_dumps_int_list
  dsimp only
  rw [parseJ_dumpsChars l ((dumpsChars l).length + 1)
    (by have := dumpsChars_length l; omega)]
  rfl

theorem jsonInts_map_num (l : List Int) : jsonInts (l.map Json.num) = some l := by
  induction l with
  | nil => rfl
  | cons x xs ih => simp [jsonInts, ih]

theorem dumpsChars_ne_nil (l : List Int) : dumpsChars l ≠ [] := by
  cases l <;> simp [dumpsChars]

/-- Full round trip of the `dependencies` column through `create_plan`
and `get_plan`: encoding then decoding is the identity. -/
theorem decodeDeps_dumps (l : List Int) :
    Planer.decodeDeps (json_dumps_int_list l) = some l := by
  unfold Planer.decodeDeps
  have hne : json_dumps_int_list l ≠ "" := by
    unfold json_dumps_int_list
    intro h
    have : dumpsChars l = [] := by
      have := congrArg String.data h
      simpa using this
    exact dumpsChars_ne_nil l this
  rw [if_neg hne]
  unfold json_loads_int_list
  rw [json_loads_dumps l]
  exact jsonInts_map_num l

/-! ## Helper lemmas about the store operations -/

theorem contains_iff {l : List Nat} {a : Nat} : l.contains a = true ↔ a ∈ l :=
  List.elem_iff

/-- What `update_task_status` writes into a matched task row. -/
def updTaskRow (ut : Nat) (st : TaskStatus) (t : TaskRow) : TaskRow :=
  { t with
    status := st
    updated_at := ut
    completed_at := if st == TaskStatus.completed then some ut else t.completed_at }

/-- What `_update_plan_progress` writes into the plan row: the two
counters recomputed by counting over the given task table, plus a fresh
`updated_at`. -/
def recomputeRow (tasks : List TaskRow) (now : Nat) (p : PlanRow) : PlanRow :=
  let relevant := tasks.filter
    (fun t => t.plan_id == p.id && !(t.status == TaskStatus.deleted))
  { p with
    total_tasks := (relevant.length : Int)
    completed_tasks :=
      ((relevant.filter (fun t => t.status == TaskStatus.completed)).length : Int)
    updated_at := now }

theorem recomputeRow_id (tasks : List TaskRow) (now : Nat) (p : PlanRow) :
    (recomputeRow tasks now p).id = p.id := rfl

theorem recomputeRow_idem (tasks : List TaskRow) (now : Nat) (p : PlanRow) :
    recomputeRow tasks now (recomputeRow tasks now p) = recomputeRow tasks now p := rfl

theorem map_if_id_of_not_mem {l : List PlanRow} {pid : Nat} {f : PlanRow → PlanRow}
    (h : ∀ p ∈ l, p.id ≠ pid) :
    l.map (fun p => if p.id = pid then f p else p) = l := by
  induction l with
  | nil => rfl
  | cons p ps ih =>
    simp only [List.map_cons, if_neg (h p (by simp)), ih (fun q hq => h q (by simp [hq])),
      List.cons.injEq, and_self]

theorem updateFirstPlan_eq_map {l : List PlanRow} {pid : Nat} {f : PlanRow → PlanRow}
    (hnd : (l.map (fun p => p.id)).Nodup) :
    updateFirstPlan pid f l = l.map (fun p => if p.id = pid then f p else p) := by
  induction l with
  | nil => rfl
  | cons p ps ih =>
    simp only [List.map_cons, List.nodup_cons, List.mem_map] at hnd
    by_cases hp : p.id = pid
    · simp only [updateFirstPlan, if_pos hp, List.map_cons, if_pos hp]
      rw [map_if_id_of_not_mem]
      intro q hq hqe
      exact hnd.1 ⟨q, hq, by rw [hqe, hp]⟩
    · simp only [updateFirstPlan, if_neg hp, List.map_cons, if_neg hp]
      rw [ih hnd.2]

theorem update_plan_progress_tasks (now pid : Nat) (db : DB) :
    (update_plan_progress now pid db).tasks = db.tasks := rfl

theorem update_plan_progress_next (now pid : Nat) (db : DB) :
    (update_plan_progress now pid db).next_plan_id = db.next_plan_id ∧
    (update_plan_progress now pid db).next_task_id = db.next_task_id := ⟨rfl, rfl⟩

theorem update_plan_progress_plans (now pid : Nat) (db : DB)
    (hnd : (db.plans.map (fun p => p.id)).Nodup) :
    (update_plan_progress now pid db).plans
      = db.plans.map (fun p => if p.id = pid then recomputeRow db.tasks now p else p) := by
  unfold update_plan_progress
  dsimp only
  rw [updateFirstPlan_eq_map hnd]
  apply List.map_congr_left
  intro p _
  by_cases hp : p.id = pid
  · rw [if_pos hp, if_pos hp]
    unfold recomputeRow
    dsimp only
    rw [hp]
  · rw [if_neg hp, if_neg hp]

theorem ids_map_if (l : List PlanRow) (cond : Nat → Prop) [DecidablePred cond]
    (g : PlanRow → PlanRow) (hg : ∀ p, (g p).id = p.id) :
    ((l.map (fun p => if cond p.id then g p else p)).map (fun p => p.id))
      = l.map (fun p => p.id) := by
  rw [List.map_map]
  apply List.map_congr_left
  intro p _
  by_cases hp : cond p.id
  · simp [hp, hg]
  · simp [hp]

theorem fold_progress (pids : List Nat) (now : Nat) :
    ∀ (db : DB), (db.plans.map (fun p => p.id)).Nodup →
    (pids.foldl (fun d pid => update_plan_progress now pid d) db).tasks = db.tasks ∧
    (pids.foldl (fun d pid => update_plan_progress now pid d) db).next_plan_id
      = db.next_plan_id ∧
    (pids.foldl (fun d pid => update_plan_progress now pid d) db).next_task_id
      = db.next_task_id ∧
    (pids.foldl (fun d pid => update_plan_progress now pid d) db).plans
      = db.plans.map
          (fun p => if p.id ∈ pids then recomputeRow db.tasks now p else p) := by
  induction pids with
  | nil =>
    intro db _
    refine ⟨rfl, rfl, rfl, ?_⟩
    simp
  | cons pid rest ih =>
    intro db hnd
    simp only [List.foldl_cons]
    set db1 := update_plan_progress now pid db with hdb1
    have h1p : db1.plans
        = db.plans.map (fun p => if p.id = pid then recomputeRow db.tasks now p else p) :=
      update_plan_progress_plans now pid db hnd
    have h1t : db1.tasks = db.tasks := rfl
    have hnd1 : (db1.plans.map (fun p => p.id)).Nodup := by
      rw [h1p, ids_map_if db.plans (fun i => i = pid) _ (recomputeRow_id db.tasks now)]
      exact hnd
    obtain ⟨ht, hnp, hnt, hp⟩ := ih db1 hnd1
    refine ⟨by rw [ht, h1t], by rw [hnp]; rfl, by rw [hnt]; rfl, ?_⟩
    rw [hp, h1t, h1p, List.map_map]
    apply List.map_congr_left
    intro p _
    simp only [Function.comp_apply]
    by_cases hmem : p.id = pid
    · rw [if_pos hmem]
      by_cases hr : p.id ∈ rest
      · rw [if_pos (by rw [recomputeRow_id]; exact hr), recomputeRow_idem,
          if_pos (by simp [hmem])]
      · rw [if_neg (by rw [recomputeRow_id]; exact hr), if_pos (by simp [hmem])]
    · rw [if_neg hmem]
      by_cases hr : p.id ∈ rest
      · rw [if_pos hr, if_pos (by simp [hr])]
      · rw [if_neg hr, if_neg (by simp [hmem, hr])]

theorem fold_progress_frame (pids : List Nat) (now : Nat) :
    ∀ (db : DB),
    (pids.foldl (fun d pid => update_plan_progress now pid d) db).tasks = db.tasks ∧
    (pids.foldl (fun d pid => update_plan_progress now pid d) db).next_plan_id
      = db.next_plan_id ∧
    (pids.foldl (fun d pid => update_plan_progress now pid d) db).next_task_id
      = db.next_task_id := by
  induction pids with
  | nil => exact fun db => ⟨rfl, rfl, rfl⟩
  | cons pid rest ih =>
    intro db
    simp only [List.foldl_cons]
    obtain ⟨ht, hnp, hnt⟩ := ih (update_plan_progress now pid db)
    exact ⟨ht, hnp, hnt⟩

/-- Whether the status-update batch touches the plan with the given id. -/
def touchedB (db : DB) (ids : List Nat) (pid : Nat) : Bool :=
  db.tasks.any (fun t => ids.contains t.id && t.plan_id == pid)

theorem update_task_status_no_match (db : DB) (ut pt : Nat) (ids : List Nat)
    (st : TaskStatus) (h : ∀ t ∈ db.tasks, t.id ∉ ids) :
    update_task_status db ut pt ids st = (db, false) := by
  unfold update_task_status
  have hfil : db.tasks.filter (fun t => ids.contains t.id) = [] := by
    rw [List.filter_eq_nil_iff]
    intro t ht hc
    exact h t ht (contains_iff.mp hc)
  simp only [hfil, List.isEmpty_nil, if_true]

theorem update_task_status_match (db : DB) (ut pt : Nat) (ids : List Nat)
    (st : TaskStatus) (h : ∃ t ∈ db.tasks, t.id ∈ ids) :
    (update_task_status db ut pt ids st).2 = true ∧
    (update_task_status db ut pt ids st).1.tasks
      = db.tasks.map (fun t => if ids.contains t.id then updTaskRow ut st t else t) ∧
    (update_task_status db ut pt ids st).1.next_plan_id = db.next_plan_id ∧
    (update_task_status db ut pt ids st).1.next_task_id = db.next_task_id ∧
    ((db.plans.map (fun p => p.id)).Nodup →
      (update_task_status db ut pt ids st).1.plans
        = db.plans.map (fun p =>
            if touchedB db ids p.id then
              recomputeRow
                (db.tasks.map
                  (fun t => if ids.contains t.id then updTaskRow ut st t else t))
                pt p
            else p)) := by
  obtain ⟨t0, ht0, hid0⟩ := h
  have hne : db.tasks.filter (fun t => ids.contains t.id) ≠ [] := by
    intro he
    have hmem : t0 ∈ db.tasks.filter (fun t => ids.contains t.id) :=
      List.mem_filter.mpr ⟨ht0, contains_iff.mpr hid0⟩
    rw [he] at hmem
    simp at hmem
  have hcond : ¬((db.tasks.filter (fun t => ids.contains t.id)).isEmpty = true) := by
    rw [List.isEmpty_iff]
    exact hne
  unfold update_task_status
  rw [if_neg hcond]
  dsimp only
  set tasks2 := db.tasks.map
    (fun t =>
      if ids.contains t.id then
        { t with
          status := st
          updated_at := ut
          completed_at :=
            if st == TaskStatus.completed then some ut else t.completed_at }
      else t) with htasks2
  have htasks2' : tasks2
      = db.tasks.map (fun t => if ids.contains t.id then updTaskRow ut st t else t) := rfl
  set pids := ((db.tasks.filter (fun t => ids.contains t.id)).map
    (fun t => t.plan_id)).dedup with hpids
  set db1 : DB := { db with tasks := tasks2 } with hdb1
  obtain ⟨hft, hfnp, hfnt⟩ := fold_progress_frame pids pt db1
  refine ⟨rfl, by rw [hft]; exact htasks2', by rw [hfnp], by rw [hfnt], ?_⟩
  intro hnd
  have hnd1 : (db1.plans.map (fun p => p.id)).Nodup := hnd
  obtain ⟨_, _, _, hfp⟩ := fold_progress pids pt db1 hnd1
  rw [hfp]
  apply List.map_congr_left
  intro p _
  have hiff : (p.id ∈ pids) ↔ touchedB db ids p.id = true := by
    rw [hpids]
    simp only [List.mem_dedup, List.mem_map, List.mem_filter, touchedB, List.any_eq_true,
      Bool.and_eq_true, beq_iff_eq]
    constructor
    · rintro ⟨t, ⟨htm, hcon⟩, hpl⟩
      exact ⟨t, htm, hcon, hpl⟩
    · rintro ⟨t, htm, hcon, hpl⟩
      exact ⟨t, ⟨htm, hcon⟩, hpl⟩
  by_cases hmem : p.id ∈ pids
  · rw [if_pos hmem, if_pos (hiff.mp hmem)]
    exact congrArg (fun l => recomputeRow l pt p) htasks2'
  · rw [if_neg hmem, if_neg (fun hc => hmem (hiff.mpr hc))]

/-! ## Example fixtures used by witnesses and counterexamples -/

/-- A two-task input plan mirroring the repository's test fixture. -/
def exPlan : Plan :=
  { title := "Test Project"
    description := some "A test project plan"
    category := .project
    goal := "Complete the test successfully"
    tasks :=
      [ { plan_id := 0, title := "Task 1", description := some "First task",
          priority := .high },
        { plan_id := 0, title := "Task 2", description := some "Second task",
          dependencies := [0] } ] }

/-- The store after persisting `exPlan` into a fresh database at time 5. -/
def exDB : DB := (create_plan emptyDB 5 exPlan).1

/-! ## C5 -/

/-- C5: `updateTaskStatus` returns `false` and changes nothing when no
requested id exists; otherwise it returns `true` (even on a partial
match), stamps every matched task's status, `updated_at` and — when the
new status is completed — `completed_at` with the one batch timestamp,
and recomputes the counters (counting owned tasks excluding deleted ones)
and bumps `updated_at` of every distinct plan touched by the batch, while
leaving untouched plans and unmatched tasks unchanged. -/
theorem c5_update_task_status_contract (db : DB) (ut pt : Nat) (ids : List Nat)
    (st : TaskStatus) :
    ((∀ t ∈ db.tasks, t.id ∉ ids) → update_task_status db ut pt ids st = (db, false)) ∧
    ((∃ t ∈ db.tasks, t.id ∈ ids) →
      (update_task_status db ut pt ids st).2 = true ∧
      (update_task_status db ut pt ids st).1.tasks
        = db.tasks.map (fun t => if ids.contains t.id then updTaskRow ut st t else t) ∧
      ((db.plans.map (fun p => p.id)).Nodup →
        (update_task_status db ut pt ids st).1.plans
          = db.plans.map (fun p =>
              if touchedB db ids p.id then
                recomputeRow (update_task_status db ut pt ids st).1.tasks pt p
              else p))) := by
  constructor
  · exact update_task_status_no_match db ut pt ids st
  · intro h
    obtain ⟨h1, h2, _, _, h5⟩ := update_task_status_match db ut pt ids st h
    refine ⟨h1, h2, ?_⟩
    intro hnd
    rw [h5 hnd, h2]
  
/-- C5 witness: on the concrete store `exDB`, updating the single task id
1 to completed succeeds, stamps the task, and recomputes the touched
plan. -/
theorem c5_witness :
    (update_task_status exDB 7 8 [1] .completed).2 = true ∧
    (update_task_status exDB 7 8 [1] .completed).1.tasks
      = exDB.tasks.map
          (fun t => if [1].contains t.id then updTaskRow 7 .completed t else t) ∧
    update_task_status exDB 9 9 [42] .completed = (exDB, false) := by
  refine ⟨?_, ?_, ?_⟩
  · exact ((c5_update_task_status_contract exDB 7 8 [1] .completed).2 (by decide)).1
  · exact ((c5_update_task_status_contract exDB 7 8 [1] .completed).2 (by decide)).2.1
  · exact (c5_update_task_status_contract exDB 9 9 [42] .completed).1 (by decide)

/-! ## C3 -/

/-- The single-task plan used to exhibit the `completed_at` overwrite. -/
def c3Plan : Plan :=
  { title := "T", category := .project, goal := "g",
    tasks := [{ plan_id := 0, title := "A" }] }

/-- Store states: created at 0, completed at 10, completed again at 20. -/
def c3db1 : DB := (update_task_status ((create_plan emptyDB 0 c3Plan).1) 10 10 [1]
  .completed).1

/-- Second identical completed update, at a later clock. -/
def c3db2 : DB := (update_task_status c3db1 20 20 [1] .completed).1

/-- C3 counterexample: completing an already-completed task overwrites
`completed_at` with the second call's timestamp, so the claim that the
second `updateTaskStatus([t], completed)` leaves `completed_at` unchanged
is false on this concrete store. -/
theorem c3_counterexample :
    (c3db1.tasks.map (fun t => t.completed_at)) = [some 10] ∧
    (c3db2.tasks.map (fun t => t.completed_at)) = [some 20] ∧
    ¬ (c3db2.tasks.map (fun t => t.completed_at)
        = c3db1.tasks.map (fun t => t.completed_at)) := by
  refine ⟨by decide, by decide, by decide⟩

/-- C3 amended: every `updateTaskStatus(ids, completed)` call sets the
`completed_at` of every matched task to that call's batch timestamp —
the timestamp is re-set (overwritten) on each completed update, including
a repeated one, rather than being set only at the first transition. -/
theorem c3_completed_at_overwritten (db : DB) (ut pt : Nat) (ids : List Nat) :
    ∀ t' ∈ (update_task_status db ut pt ids .completed).1.tasks,
      t'.id ∈ ids →
        t'.completed_at = some ut ∧ t'.updated_at = ut ∧ t'.status = .completed := by
  by_cases h : ∃ t ∈ db.tasks, t.id ∈ ids
  · obtain ⟨_, h2, _, _, _⟩ := update_task_status_match db ut pt ids .completed h
    intro t' ht' hid
    rw [h2] at ht'
    obtain ⟨t, ht, hteq⟩ := List.mem_map.mp ht'
    by_cases hc : ids.contains t.id = true
    · rw [if_pos hc] at hteq
      subst hteq
      exact ⟨rfl, rfl, rfl⟩
    · rw [if_neg hc] at hteq
      subst hteq
      exact absurd (contains_iff.mpr hid) hc
  · push_neg at h
    rw [update_task_status_no_match db ut pt ids .completed h]
    intro t' ht' hid
    exact absurd hid (h t' ht')

/-- C3 amended witness: the second completed update on the concrete store
stamps the task with the second timestamp. -/
theorem c3_witness :
    (c3db2.tasks.map (fun t => t.completed_at)) = [some 20] := by
  have hmem : ∀ t' ∈ c3db2.tasks, t'.id ∈ [1] := by decide
  have h20 := c3_completed_at_overwritten c3db1 20 20 [1]
  have : ∀ t' ∈ c3db2.tasks, t'.completed_at = some 20 := by
    intro t' ht'
    exact (h20 t' ht' (hmem t' ht')).1
  revert this
  decide

/-! ## C9 -/

/-- C9: `updatePlanInfo` is a partial update: it returns `false` with no
change when the plan id does not exist; otherwise it returns `true`,
leaves tasks, counters and every non-supplied field unchanged, overwrites
the title only when a non-empty (truthy) title is supplied, overwrites
the description whenever one is supplied (an empty value clears it), and
bumps `updated_at`. -/
theorem c9_update_plan_info_contract (db : DB) (now pid : Nat)
    (title description : Option String) :
    ((db.plans.find? (fun p => p.id == pid) = none) →
      update_plan_info db now pid title description = (db, false)) ∧
    ((db.plans.find? (fun p => p.id == pid)).isSome = true →
      (update_plan_info db now pid title description).2 = true ∧
      (update_plan_info db now pid title description).1.tasks = db.tasks ∧
      (update_plan_info db now pid title description).1.next_plan_id = db.next_plan_id ∧
      (update_plan_info db now pid title description).1.next_task_id = db.next_task_id ∧
      ((db.plans.map (fun p => p.id)).Nodup →
        (update_plan_info db now pid title description).1.plans
          = db.plans.map (fun p =>
              if p.id = pid then
                { p with
                  title := if pyTruthyOptStr title then title.getD p.title else p.title
                  description :=
                    if description.isSome then description else p.description
                  updated_at := now }
              else p))) := by
  constructor
  · intro h
    unfold update_plan_info
    rw [h]
  · intro h
    obtain ⟨pm, hpm⟩ := Option.isSome_iff_exists.mp h
    unfold update_plan_info
    rw [hpm]
    refine ⟨rfl, rfl, rfl, rfl, ?_⟩
    intro hnd
    dsimp only
    rw [updateFirstPlan_eq_map hnd]
    apply List.map_congr_left
    intro p _
    by_cases hp : p.id = pid
    · rw [if_pos hp, if_pos hp]
      by_cases ht : pyTruthyOptStr title = true
      · by_cases hd : description.isSome = true
        · simp [ht, hd]
        · simp [ht, hd]
      · by_cases hd : description.isSome = true
        · simp [ht, hd]
        · simp [ht, hd]
    · rw [if_neg hp, if_neg hp]

/-- C9 witness: on the concrete store, updating plan 1 with a new title
and an empty description succeeds and rewrites exactly those fields, and
updating a missing plan id returns `false` with no change. -/
theorem c9_witness :
    (update_plan_info exDB 9 1 (some "Updated Title") (some "")).2 = true ∧
    update_plan_info exDB 9 77 (some "X") none = (exDB, false) := by
  constructor
  · exact ((c9_update_plan_info_contract exDB 9 1 (some "Updated Title")
      (some "")).2 (by decide)).1
  · exact (c9_update_plan_info_contract exDB 9 77 (some "X") none).1 (by decide)

/-! ## C10 -/

/-- C10: in the preview step, for an accepted reply (lowercased): a reply
containing "cancel" or "abort", or equal to "no", cancels with no store
mutation; otherwise a reply containing "yes" anywhere — including long
feedback such as "yes but change the last task" — commits the current
task set directly; a token-free reply of at most 10 characters also
commits directly; only a token-free reply strictly longer than 10
characters triggers the one-shot regeneration (an elicitation-level
cancel also cancels). -/
theorem c10_preview_confirmation_rules (d : Option String) (db : DB) (now : Nat)
    (pf : PlanFields) (tasks : List Task) (regen : Option String) :
    (preview_decision ⟨.cancel, d⟩ = .cancelled ∧
      after_preview db now pf tasks ⟨.cancel, d⟩ regen = (db, .cancelled)) ∧
    ((strContains (pyLower (d.getD "")) ("cancel") = true ∨
        strContains (pyLower (d.getD "")) ("abort") = true ∨
        pyLower (d.getD "") = "no") →
      preview_decision ⟨.accept, d⟩ = .cancelled ∧
      after_preview db now pf tasks ⟨.accept, d⟩ regen = (db, .cancelled)) ∧
    (strContains (pyLower (d.getD "")) ("cancel") = false →
      strContains (pyLower (d.getD "")) ("abort") = false →
      pyLower (d.getD "") ≠ "no" →
      strContains (pyLower (d.getD "")) ("yes") = true →
      preview_decision ⟨.accept, d⟩ = .save ∧
      after_preview db now pf tasks ⟨.accept, d⟩ regen
        = ((create_plan db now (mkCandidatePlan pf tasks)).1,
           .committed (create_plan db now (mkCandidatePlan pf tasks)).2)) ∧
    (strContains (pyLower (d.getD "")) ("cancel") = false →
      strContains (pyLower (d.getD "")) ("abort") = false →
      pyLower (d.getD "") ≠ "no" →
      strContains (pyLower (d.getD "")) ("yes") = false →
      (pyLower (d.getD "")).length ≤ 10 →
      preview_decision ⟨.accept, d⟩ = .save ∧
      after_preview db now pf tasks ⟨.accept, d⟩ regen
        = ((create_plan db now (mkCandidatePlan pf tasks)).1,
           .committed (create_plan db now (mkCandidatePlan pf tasks)).2)) ∧
    (strContains (pyLower (d.getD "")) ("cancel") = false →
      strContains (pyLower (d.getD "")) ("abort") = false →
      pyLower (d.getD "") ≠ "no" →
      strContains (pyLower (d.getD "")) ("yes") = false →
      (pyLower (d.getD "")).length > 10 →
      preview_decision ⟨.accept, d⟩ = .regenerate (pyLower (d.getD "")) ∧
      after_preview db now pf tasks ⟨.accept, d⟩ regen
        = ((create_plan db now (mkCandidatePlan pf (regen_step tasks regen))).1,
           .committed
             (create_plan db now (mkCandidatePlan pf (regen_step tasks regen))).2)) ∧
    preview_decision ⟨.accept, some "yes but change the last task"⟩ = .save := by
  refine ⟨⟨rfl, rfl⟩, ?_, ?_, ?_, ?_, by decide⟩
  · intro h
    have hdec : preview_decision ⟨.accept, d⟩ = .cancelled := by
      unfold preview_decision
      rcases h with h | h | h <;> simp [h]
    refine ⟨hdec, ?_⟩
    unfold after_preview
    rw [hdec]
  · intro h1 h2 h3 h4
    have hdec : preview_decision ⟨.accept, d⟩ = .save := by
      unfold preview_decision
      simp [h1, h2, h3, h4]
    refine ⟨hdec, ?_⟩
    unfold after_preview
    rw [hdec]
  · intro h1 h2 h3 h4 h5
    have hdec : preview_decision ⟨.accept, d⟩ = .save := by
      unfold preview_decision
      simp [h1, h2, h3, h4]
      omega
    refine ⟨hdec, ?_⟩
    unfold after_preview
    rw [hdec]
  · intro h1 h2 h3 h4 h5
    have hdec : preview_decision ⟨.accept, d⟩ = .regenerate (pyLower (d.getD "")) := by
      unfold preview_decision
      simp [h1, h2, h3, h4]
      omega
    refine ⟨hdec, ?_⟩
    unfold after_preview
    rw [hdec]

/-- C10 witness: the four rule classes applied at concrete replies. -/
theorem c10_witness :
    preview_decision ⟨.accept, some "NO"⟩ = .cancelled ∧
    preview_decision ⟨.accept, some "Yes but change the last task"⟩ = .save ∧
    preview_decision ⟨.accept, some "tweak"⟩ = .save ∧
    preview_decision ⟨.accept, some "please make task two shorter"⟩
      = .regenerate ("please make task two shorter") := by
  refine ⟨?_, ?_, ?_, ?_⟩
  · exact ((c10_preview_confirmation_rules (some "NO") emptyDB 0
      ⟨"t", none, .project, "g"⟩ [] none).2.1 (Or.inr (Or.inr (by decide)))).1
  · exact ((c10_preview_confirmation_rules (some "Yes but change the last task")
      emptyDB 0 ⟨"t", none, .project, "g"⟩ [] none).2.2.1
      (by decide) (by decide) (by decide) (by decide)).1
  · exact ((c10_preview_confirmation_rules (some "tweak") emptyDB 0
      ⟨"t", none, .project, "g"⟩ [] none).2.2.2.1
      (by decide) (by decide) (by decide) (by decide) (by decide)).1
  · exact ((c10_preview_confirmation_rules (some "please make task two shorter")
      emptyDB 0 ⟨"t", none, .project, "g"⟩ [] none).2.2.2.2.1
      (by decide) (by decide) (by decide) (by decide) (by decide)).1

/-! ## C4 -/

/-- C4: when extraction yields nothing valid on the original instruction,
on the once-strengthened instruction and on the twice-strengthened
instruction, the generation stage makes exactly 3 attempts (the second
and later ones with the JSON-only demand appended), terminates as a hard
failure carrying the last error, and the whole `new_plan` pipeline
returns the failure message with the database unchanged — no plan is
persisted. -/
theorem c4_generation_retry_bound (sample : Nat → String → String) (p0 : String)
    (h0 : extractTasksData (sample 0 (promptAt p0 0)) = none)
    (h1 : extractTasksData (sample 1 (promptAt p0 1)) = none)
    (h2 : extractTasksData (sample 2 (promptAt p0 2)) = none) :
    generation_stage sample p0 = GenResult.fail genValueErrorMsg 3 ∧
    promptAt p0 0 = p0 ∧
    promptAt p0 1 = p0 ++ strengthClause ∧
    promptAt p0 2 = p0 ++ strengthClause ++ strengthClause ∧
    (∀ (db : DB) (now : Nat) (pf : PlanFields) (er : ElicitResult)
        (regen : Option String),
      new_plan_flow db now pf sample p0 er regen
        = (db, NewPlanOutcome.genFailed (genFailUserMessage genValueErrorMsg))) := by
  have h0' : extractTasksData (sample 0 p0) = none := h0
  have h1' : extractTasksData (sample 1 (p0 ++ strengthClause)) = none := h1
  have h2' : extractTasksData (sample 2 (p0 ++ strengthClause ++ strengthClause))
      = none := h2
  have hgen : generation_stage sample p0 = GenResult.fail genValueErrorMsg 3 := by
    unfold generation_stage max_retries
    simp [gen_run, h0', h1', h2']
  refine ⟨hgen, rfl, rfl, rfl, ?_⟩
  intro db now pf er regen
  unfold new_plan_flow
  rw [hgen]

/-- C4 witness: a service that always answers with prose extracting to
nothing makes the pipeline fail after exactly 3 attempts with the
database untouched. -/
theorem c4_witness :
    generation_stage (fun _ _ => "no json here") ("PLAN")
      = GenResult.fail genValueErrorMsg 3 ∧
    new_plan_flow exDB 9 ⟨"t", none, .project, "g"⟩ (fun _ _ => "no json here")
        ("PLAN") ⟨.accept, some "yes"⟩ none
      = (exDB, NewPlanOutcome.genFailed (genFailUserMessage genValueErrorMsg)) := by
  have h := c4_generation_retry_bound (fun _ _ => "no json here") ("PLAN")
    (by rfl) (by rfl) (by rfl)
  exact ⟨h.1, h.2.2.2.2 exDB 9 ⟨"t", none, .project, "g"⟩ ⟨.accept, some "yes"⟩ none⟩

/-! ## C6 -/

/-- The markdown-fenced example from the spec. -/
def exFenceText : String := "Here are the tasks:\n```json\n[\x7b\"title\":\"A\"\x7d]\n```"

/-- C6: the Response Extractor is total (returns a value or absence — it
never raises); if the stripped text starts with the expected opening
delimiter and parses directly, that parse is returned; otherwise the
result is exactly the fallback: parse the slice from the first opening
delimiter to the last closing delimiter when the latter lies strictly
after the former, else absence. The spec's two examples: a fenced JSON
array extracts, and plain prose yields absence. -/
theorem c6_extractor_contract (text ety : String) :
    (extract_json_from_text text ety = none ∨
      ∃ j, extract_json_from_text text ety = some j) ∧
    (∀ j, (pyStrip text).data.head? = some (startCharOf ety) →
      json_loads (pyStrip text) = some j →
      extract_json_from_text text ety = some j) ∧
    (((pyStrip text).data.head? ≠ some (startCharOf ety) ∨
        json_loads (pyStrip text) = none) →
      extract_json_from_text text ety
        = (match pyFindCh (pyStrip text).data (startCharOf ety),
                 pyRFindCh (pyStrip text).data (endCharOf ety) with
           | some si, some ei =>
             if si < ei then
               json_loads (String.mk (pySliceIncl (pyStrip text).data si ei))
             else none
           | _, _ => none)) ∧
    extract_json_from_text exFenceText tyArray
      = some (Json.arr [Json.obj [("title", Json.str "A")]]) ∧
    extract_json_from_text ("not json at all") tyArray = none := by
  refine ⟨?_, ?_, ?_, by rfl, by rfl⟩
  · cases h : extract_json_from_text text ety with
    | none => exact Or.inl rfl
    | some j => exact Or.inr ⟨j, rfl⟩
  · intro j hhead hloads
    unfold extract_json_from_text
    dsimp only
    rw [if_pos hhead, hloads]
  · intro h
    unfold extract_json_from_text
    dsimp only
    by_cases hhead : (pyStrip text).data.head? = some (startCharOf ety)
    · have hloads : json_loads (pyStrip text) = none := by
        rcases h with h | h
        · exact absurd hhead h
        · exact h
      rw [if_pos hhead, hloads]
    · rw [if_neg hhead]

/-- C6 witness: the direct-parse clause applied at a concrete input whose
stripped text starts with the expected delimiter. -/
theorem c6_witness :
    extract_json_from_text ("  [1, 2] ") tyArray
      = some (Json.arr [Json.num 1, Json.num 2]) :=
  (c6_extractor_contract ("  [1, 2] ") tyArray).2.1
    (Json.arr [Json.num 1, Json.num 2]) (by rfl) (by rfl)

/-! ## C7 -/

/-- The sequence of plan summaries visible to `get_all_plans` before
pagination: filtered (unless `include_completed`) and ordered by
`updated_at` descending. -/
def listedPlans (db : DB) (ic : Bool) : List PlanRow :=
  (if ic then db.plans else db.plans.filter activeFilter).insertionSort planUpdDesc

theorem get_all_plans_eq (db : DB) (ic : Bool) (page size : Nat) :
    get_all_plans db ic page size
      = ((listedPlans db ic).drop ((page - 1) * size)).take size := rfl

/-- C7: `listPlans` keeps only plans with `total_tasks = 0` or
`completed_tasks < total_tasks` unless `includeCompleted` is set, returns
them most-recently-updated first, and paginates with 1-based pages of the
given size: a page holds `min size (remaining)` entries, any page beyond
the data is the empty sequence (not an error), and with 35 visible plans
page 1 of size 30 holds exactly 30, page 2 exactly 5, and page 3 and
beyond are empty. -/
theorem c7_list_plans_pagination (db : DB) (ic : Bool) (page size : Nat) :
    (∀ r ∈ get_all_plans db false page size, activeFilter r = true) ∧
    List.Sorted planUpdDesc (get_all_plans db ic page size) ∧
    (get_all_plans db ic page size).length
      = min size ((listedPlans db ic).length - (page - 1) * size) ∧
    ((listedPlans db ic).length ≤ (page - 1) * size →
      get_all_plans db ic page size = []) ∧
    ((db.plans.filter activeFilter).length = 35 →
      (get_all_plans db false 1 30).length = 30 ∧
      (get_all_plans db false 2 30).length = 5 ∧
      (3 ≤ page → get_all_plans db false page 30 = [])) := by
  have hlen : ∀ (ic' : Bool) (page' size' : Nat),
      (get_all_plans db ic' page' size').length
        = min size' ((listedPlans db ic').length - (page' - 1) * size') := by
    intro ic' page' size'
    rw [get_all_plans_eq, List.length_take, List.length_drop]
  have hsortlen : ∀ ic' : Bool,
      (listedPlans db ic').length
        = (if ic' then db.plans else db.plans.filter activeFilter).length := by
    intro ic'
    exact List.length_insertionSort _ _
  have hempty : ∀ (ic' : Bool) (page' size' : Nat),
      (listedPlans db ic').length ≤ (page' - 1) * size' →
      get_all_plans db ic' page' size' = [] := by
    intro ic' page' size' hle
    have h0 : (get_all_plans db ic' page' size').length = 0 := by
      rw [hlen ic' page' size']
      omega
    exact List.eq_nil_of_length_eq_zero h0
  refine ⟨?_, ?_, hlen ic page size, hempty ic page size, ?_⟩
  · intro r hr
    rw [get_all_plans_eq] at hr
    have hr2 : r ∈ listedPlans db false :=
      List.drop_subset _ _ (List.take_subset _ _ hr)
    unfold listedPlans at hr2
    simp only [if_neg (by simp : ¬(false = true))] at hr2
    rw [List.mem_insertionSort] at hr2
    exact (List.mem_filter.mp hr2).2
  · rw [get_all_plans_eq]
    have hs : List.Sorted planUpdDesc (listedPlans db ic) :=
      List.sorted_insertionSort planUpdDesc _
    exact hs.sublist ((List.take_sublist _ _).trans (List.drop_sublist _ _))
  · intro h35
    have hl : (listedPlans db false).length = 35 := by
      rw [hsortlen false]
      simpa using h35
    refine ⟨?_, ?_, ?_⟩
    · rw [hlen false 1 30, hl]
      decide
    · rw [hlen false 2 30, hl]
      decide
    · intro hpage
      apply hempty false page 30
      rw [hl]
      have : 60 ≤ (page - 1) * 30 := by
        have h2 : 2 ≤ page - 1 := by omega
        calc 60 = 2 * 30 := by norm_num
        _ ≤ (page - 1) * 30 := Nat.mul_le_mul_right 30 h2
      omega

/-- The 35-plan fixture of the pagination test: 35 empty active plans. -/
def dbC7 : DB :=
  { plans := (List.range 35).map (fun i =>
      { id := i + 1, title := "P", description := none, category := .project,
        goal := "g", status := .pending, total_tasks := 0, completed_tasks := 0,
        created_at := 0, updated_at := i })
    tasks := []
    next_plan_id := 36
    next_task_id := 1 }

/-- C7 witness: the pagination facts applied at the 35-plan store. -/
theorem c7_witness :
    (get_all_plans dbC7 false 1 30).length = 30 ∧
    (get_all_plans dbC7 false 2 30).length = 5 ∧
    get_all_plans dbC7 false 3 30 = [] := by
  have h := (c7_list_plans_pagination dbC7 false 3 30).2.2.2.2 (by decide)
  exact ⟨h.1, h.2.1, h.2.2 (by omega)⟩

/-! ## C2 -/

theorem mkTaskRows_length (pid tid0 now : Nat) :
    ∀ (ts : List Task) (i : Nat), (mkTaskRows pid tid0 now i ts).length = ts.length := by
  intro ts
  induction ts with
  | nil => intro i; rfl
  | cons t0 rest ih =>
    intro i
    simp only [mkTaskRows, List.length_cons, ih (i + 1)]

theorem mkTaskRows_get? (pid tid0 now : Nat) :
    ∀ (ts : List Task) (i k : Nat) (t : Task), ts.get? k = some t →
      (mkTaskRows pid tid0 now i ts).get? k = some
        { id := tid0 + (i + k), plan_id := pid, title := t.title,
          description := t.description, status := t.status, priority := t.priority,
          order_index := ((i + k : Nat) : Int),
          dependencies := json_dumps_int_list t.dependencies,
          created_at := now, updated_at := now, completed_at := none } := by
  intro ts
  induction ts with
  | nil =>
    intro i k t h
    simp at h
  | cons t0 rest ih =>
    intro i k t h
    cases k with
    | zero =>
      simp only [List.get?_cons_zero, Option.some.injEq] at h
      subst h
      simp [mkTaskRows]
    | succ k' =>
      simp only [List.get?_cons_succ] at h
      have := ih (i + 1) k' t h
      simp only [mkTaskRows, List.get?_cons_succ]
      rw [this]
      have harith : i + 1 + k' = i + (k' + 1) := by omega
      rw [harith]

/-- C2 counterexample: an input plan whose single task is already
completed is stored with `completed_tasks = 0`, not 1 — `create_plan`
never writes `completed_tasks`, the column keeps its default. -/
theorem c2_counterexample :
    ((create_plan emptyDB 0
        { title := "Completed Plan", category := .project, goal := "Completed goal",
          tasks := [{ plan_id := 0, title := "Task 1", status := .completed }] }).1.plans.map
      (fun p => p.completed_tasks)) = [0] ∧
    (({ title := "Completed Plan", category := .project, goal := "Completed goal",
        tasks := [{ plan_id := 0, title := "Task 1",
                    status := .completed }] } : Plan).tasks.filter
      (fun t => t.status == TaskStatus.completed)).length = 1 ∧
    (0 : Int) ≠ 1 :=
  ⟨by decide, by decide, by decide⟩

/-- C2 amended: `createPlan` persists the plan row and one task row per
input task in a single state change, assigns consecutive ids and the
creation timestamps, sets each persisted task's `order_index` to its
position in the input sequence, sets the stored `total_tasks` to the
number of input tasks — but leaves the stored `completed_tasks` at the
column default 0 regardless of the input tasks' statuses (the count of
already-completed tasks is not computed at creation), and the returned
plan mirrors the stored counters. -/
theorem c2_create_plan_contract (db : DB) (now : Nat) (p : Plan) :
    (create_plan db now p).1.plans = db.plans ++
      [{ id := db.next_plan_id, title := p.title, description := p.description,
         category := p.category, goal := p.goal, status := p.status,
         total_tasks := (p.tasks.length : Int), completed_tasks := 0,
         created_at := now, updated_at := now }] ∧
    (create_plan db now p).1.tasks.length = db.tasks.length + p.tasks.length ∧
    (∀ k t, p.tasks.get? k = some t →
      (create_plan db now p).1.tasks.get? (db.tasks.length + k) = some
        { id := db.next_task_id + k, plan_id := db.next_plan_id,
          title := t.title, description := t.description, status := t.status,
          priority := t.priority, order_index := (k : Int),
          dependencies := json_dumps_int_list t.dependencies,
          created_at := now, updated_at := now, completed_at := none }) ∧
    (create_plan db now p).1.next_plan_id = db.next_plan_id + 1 ∧
    (create_plan db now p).1.next_task_id = db.next_task_id + p.tasks.length ∧
    (create_plan db now p).2.id = some db.next_plan_id ∧
    (create_plan db now p).2.total_tasks = (p.tasks.length : Int) ∧
    (create_plan db now p).2.completed_tasks = 0 ∧
    (create_plan db now p).2.created_at = some now ∧
    (create_plan db now p).2.updated_at = some now := by
  refine ⟨rfl, ?_, ?_, rfl, rfl, rfl, rfl, rfl, rfl, rfl⟩
  · show (db.tasks ++ mkTaskRows db.next_plan_id db.next_task_id now 0 p.tasks).length
      = db.tasks.length + p.tasks.length
    rw [List.length_append, mkTaskRows_length]
  · intro k t h
    show (db.tasks ++ mkTaskRows db.next_plan_id db.next_task_id now 0 p.tasks).get?
      (db.tasks.length + k) = _
    rw [List.get?_append_right (Nat.le_add_right _ _)]
    have hsub : db.tasks.length + k - db.tasks.length = k := by omega
    rw [hsub]
    have := mkTaskRows_get? db.next_plan_id db.next_task_id now p.tasks 0 k t h
    simpa using this

/-- C2 amended witness: creating `exPlan` at time 5 in a fresh store
yields the stored row positions, ids, order indexes and counters. -/
theorem c2_witness :
    (create_plan emptyDB 5 exPlan).1.tasks.length = 2 ∧
    (create_plan emptyDB 5 exPlan).1.tasks.get? 1 = some
      { id := 2, plan_id := 1, title := "Task 2",
        description := some "Second task", status := .pending,
        priority := .medium, order_index := (1 : Int),
        dependencies := json_dumps_int_list [0],
        created_at := 5, updated_at := 5, completed_at := none } ∧
    (create_plan emptyDB 5 exPlan).2.completed_tasks = 0 := by
  have h := c2_create_plan_contract emptyDB 5 exPlan
  refine ⟨h.2.1, ?_, h.2.2.2.2.2.2.2.1⟩
  have hget : exPlan.tasks.get? 1 = some
      { plan_id := 0, title := "Task 2", description := some "Second task",
        dependencies := [0] } := by decide
  have := h.2.2.1 1 _ hget
  simpa using this

/-! ## C8 -/

theorem find?_append_left_none {α : Type} {l1 l2 : List α} {p : α → Bool}
    (h : ∀ a ∈ l1, p a = false) : (l1 ++ l2).find? p = l2.find? p := by
  induction l1 with
  | nil => rfl
  | cons a l1' ih =>
    rw [List.cons_append, List.find?_cons_of_neg _ (by simp [h a (by simp)]),
      ih (fun b hb => h b (by simp [hb]))]

theorem mkTaskRows_plan_id (pid tid0 now : Nat) :
    ∀ (ts : List Task) (i : Nat), ∀ r ∈ mkTaskRows pid tid0 now i ts, r.plan_id = pid := by
  intro ts
  induction ts with
  | nil => intro i r hr; simp [mkTaskRows] at hr
  | cons t rest ih =>
    intro i r hr
    rcases List.mem_cons.mp hr with h | h
    · subst h; rfl
    · exact ih (i + 1) r h

theorem mkTaskRows_order_ge (pid tid0 now : Nat) :
    ∀ (ts : List Task) (i : Nat), ∀ r ∈ mkTaskRows pid tid0 now i ts,
      (i : Int) ≤ r.order_index := by
  intro ts
  induction ts with
  | nil => intro i r hr; simp [mkTaskRows] at hr
  | cons t rest ih =>
    intro i r hr
    rcases List.mem_cons.mp hr with h | h
    · subst h; exact le_refl _
    · have := ih (i + 1) r h
      have hcast : ((i : Int)) ≤ ((i + 1 : Nat) : Int) := by
        push_cast
        omega
      exact le_trans hcast this

theorem mkTaskRows_sorted (pid tid0 now : Nat) :
    ∀ (ts : List Task) (i : Nat), List.Sorted taskIdxLe (mkTaskRows pid tid0 now i ts) := by
  intro ts
  induction ts with
  | nil => intro i; exact List.sorted_nil
  | cons t rest ih =>
    intro i
    simp only [mkTaskRows]
    rw [List.sorted_cons]
    refine ⟨?_, ih (i + 1)⟩
    intro r hr
    show (i : Int) ≤ r.order_index
    have := mkTaskRows_order_ge pid tid0 now rest (i + 1) r hr
    have hcast : ((i : Int)) ≤ ((i + 1 : Nat) : Int) := by
      push_cast
      omega
    exact le_trans hcast this

theorem rowsToTasks_mkTaskRows (pid tid0 now : Nat) :
    ∀ (ts : List Task) (i : Nat), ∃ ts',
      rowsToTasks (mkTaskRows pid tid0 now i ts) = some ts' ∧
      ts'.map (fun t => t.title) = ts.map (fun t => t.title) ∧
      ts'.map (fun t => t.priority) = ts.map (fun t => t.priority) ∧
      ts'.map (fun t => t.description) = ts.map (fun t => t.description) ∧
      ts'.map (fun t => t.dependencies) = ts.map (fun t => t.dependencies) ∧
      ts'.map (fun t => t.status) = ts.map (fun t => t.status) ∧
      ts'.map (fun t => t.order_index)
        = (List.range ts.length).map (fun k => ((i + k : Nat) : Int)) ∧
      ∀ t' ∈ ts', t'.id.isSome = true ∧ t'.created_at = some now ∧
        t'.updated_at = some now := by
  intro ts
  induction ts with
  | nil =>
    intro i
    exact ⟨[], rfl, rfl, rfl, rfl, rfl, rfl, rfl, by intro t' ht'; simp at ht'⟩
  | cons t rest ih =>
    intro i
    obtain ⟨rest', hrec, hti, hpr, hde, hdep, hst, hord, hids⟩ := ih (i + 1)
    refine ⟨{ id := some (tid0 + i), plan_id := pid, title := t.title,
              description := t.description, status := t.status, priority := t.priority,
              order_index := (i : Int), dependencies := t.dependencies,
              created_at := some now, updated_at := some now,
              completed_at := none } :: rest', ?_, ?_, ?_, ?_, ?_, ?_, ?_, ?_⟩
    · show rowsToTasks (_ :: mkTaskRows pid tid0 now (i + 1) rest) = _
      unfold rowsToTasks
      rw [decodeDeps_dumps t.dependencies, hrec]
    · simp [hti]
    · simp [hpr]
    · simp [hde]
    · simp [hdep]
    · simp [hst]
    · rw [List.map_cons, hord, List.length_cons, List.range_succ_eq_map,
        List.map_cons, List.map_map]
      congr 1
      apply List.map_congr_left
      intro k hk
      simp only [Function.comp_apply]
      congr 1
      omega
    · intro t' ht'
      rcases List.mem_cons.mp ht' with h | h
      · subst h; exact ⟨rfl, rfl, rfl⟩
      · exact hids t' h

/-- C8: for every input plan and well-formed store, `createPlan` followed
by `getPlan` on the assigned id returns a plan equal to the input in
title, description, category and goal, whose tasks carry the input
titles, priorities and dependencies in input order (`order_index`
0, 1, 2, …), with the plan id and all timestamps populated. -/
theorem c8_round_trip (db : DB) (now : Nat) (p : Plan) (hwf : dbWF db) :
    ∃ p', get_plan (create_plan db now p).1 db.next_plan_id = some p' ∧
      p'.title = p.title ∧ p'.description = p.description ∧
      p'.category = p.category ∧ p'.goal = p.goal ∧
      p'.id = some db.next_plan_id ∧ p'.created_at = some now ∧
      p'.updated_at = some now ∧
      p'.tasks.map (fun t => t.title) = p.tasks.map (fun t => t.title) ∧
      p'.tasks.map (fun t => t.priority) = p.tasks.map (fun t => t.priority) ∧
      p'.tasks.map (fun t => t.dependencies) = p.tasks.map (fun t => t.dependencies) ∧
      p'.tasks.map (fun t => t.order_index)
        = (List.range p.tasks.length).map Int.ofNat ∧
      (∀ t' ∈ p'.tasks, t'.id.isSome = true ∧ t'.created_at = some now ∧
        t'.updated_at = some now) := by
  obtain ⟨hpb, htb, hplb, hndp, hndt⟩ := hwf
  have hold : ∀ q ∈ db.plans, (fun (q : PlanRow) => q.id == db.next_plan_id) q = false := by
    intro q hq
    have := hpb q hq
    simp only [beq_eq_false_iff_ne, ne_eq]
    omega
  have hfind : ((create_plan db now p).1.plans).find?
      (fun q => q.id == db.next_plan_id)
      = some { id := db.next_plan_id, title := p.title, description := p.description,
               category := p.category, goal := p.goal, status := p.status,
               total_tasks := (p.tasks.length : Int), completed_tasks := 0,
               created_at := now, updated_at := now } := by
    show (db.plans ++ [_]).find? _ = _
    rw [find?_append_left_none hold, List.find?_cons_of_pos _ (by simp)]
  have h1 : db.tasks.filter (fun t => t.plan_id == db.next_plan_id) = [] := by
    rw [List.filter_eq_nil_iff]
    intro t ht hc
    have hlt := hplb t ht
    have heq : t.plan_id = db.next_plan_id := by simpa using hc
    omega
  have h2 : (mkTaskRows db.next_plan_id db.next_task_id now 0 p.tasks).filter
      (fun t => t.plan_id == db.next_plan_id)
      = mkTaskRows db.next_plan_id db.next_task_id now 0 p.tasks := by
    apply List.filter_eq_self.mpr
    intro r hr
    simp [mkTaskRows_plan_id db.next_plan_id db.next_task_id now p.tasks 0 r hr]
  have hfilter : ((create_plan db now p).1.tasks).filter
      (fun t => t.plan_id == db.next_plan_id)
      = mkTaskRows db.next_plan_id db.next_task_id now 0 p.tasks := by
    show (db.tasks ++ mkTaskRows db.next_plan_id db.next_task_id now 0 p.tasks).filter
      _ = _
    rw [List.filter_append, h1, h2, List.nil_append]
  have hsorted : (mkTaskRows db.next_plan_id db.next_task_id now 0
        p.tasks).insertionSort taskIdxLe
      = mkTaskRows db.next_plan_id db.next_task_id now 0 p.tasks :=
    (mkTaskRows_sorted db.next_plan_id db.next_task_id now p.tasks 0).insertionSort_eq
  obtain ⟨ts', hrt, hti, hpr, hde, hdep, hst, hord, hids⟩ :=
    rowsToTasks_mkTaskRows db.next_plan_id db.next_task_id now p.tasks 0
  have hord' : ts'.map (fun t => t.order_index)
      = (List.range p.tasks.length).map Int.ofNat := by
    rw [hord]
    apply List.map_congr_left
    intro k _
    simp
  refine ⟨{ id := some db.next_plan_id, title := p.title, description := p.description,
            category := p.category, goal := p.goal, status := p.status,
            total_tasks := (p.tasks.length : Int), completed_tasks := 0,
            created_at := some now, updated_at := some now, tasks := ts' },
    ?_, rfl, rfl, rfl, rfl, rfl, rfl, rfl, hti, hpr, hdep, hord', hids⟩
  unfold get_plan
  rw [hfind]
  dsimp only
  rw [hfilter, hsorted, hrt]

/-- C8 witness: the round trip applied to the concrete two-task plan on a
fresh store returns a stored plan. -/
theorem c8_witness :
    (get_plan (create_plan emptyDB 5 exPlan).1 emptyDB.next_plan_id).isSome = true := by
  obtain ⟨p', hp', _⟩ := c8_round_trip emptyDB 5 exPlan (by decide)
  rw [hp']
  rfl

/-! ## C1: invariant preservation -/

theorem filter_length_map_eq {l : List TaskRow} (f : TaskRow → TaskRow)
    (q : TaskRow → Bool) (h : ∀ t ∈ l, q (f t) = q t) :
    ((l.map f).filter q).length = (l.filter q).length := by
  induction l with
  | nil => rfl
  | cons t rest ih =>
    simp only [List.map_cons, List.filter_cons, h t (List.mem_cons_self t rest)]
    by_cases hq : q t = true
    · simp only [hq, if_true, List.length_cons,
        ih (fun u hu => h u (List.mem_cons_of_mem t hu))]
    · simp only [Bool.not_eq_true] at hq
      simp only [hq, Bool.false_eq_true, if_false,
        ih (fun u hu => h u (List.mem_cons_of_mem t hu))]

theorem nodup_range' (s n : Nat) : (List.range' s n).Nodup := by
  apply List.Pairwise.imp ?_ (List.pairwise_lt_range' s n 1 ?_)
  · intro a b hab
    omega
  · omega

theorem inv_update_task_status (db : DB) (ut pt : Nat) (ids : List Nat)
    (st : TaskStatus) (hwf : dbWF db) (hinv : planInv db) :
    dbWF (update_task_status db ut pt ids st).1 ∧
    planInv (update_task_status db ut pt ids st).1 := by
  by_cases h : ∃ t ∈ db.tasks, t.id ∈ ids
  · obtain ⟨_, h2, h3, h4, h5⟩ := update_task_status_match db ut pt ids st h
    obtain ⟨hpb, htb, hplb, hndp, hndt⟩ := hwf
    have hplans := h5 hndp
    have hplanids : (update_task_status db ut pt ids st).1.plans.map (fun p => p.id)
        = db.plans.map (fun p => p.id) := by
      rw [hplans, List.map_map]
      apply List.map_congr_left
      intro p _
      simp only [Function.comp_apply]
      by_cases hp : touchedB db ids p.id = true
      · rw [if_pos hp]
        rfl
      · rw [if_neg hp]
    have htaskids : (update_task_status db ut pt ids st).1.tasks.map (fun t => t.id)
        = db.tasks.map (fun t => t.id) := by
      rw [h2, List.map_map]
      apply List.map_congr_left
      intro t _
      simp only [Function.comp_apply]
      by_cases hc : ids.contains t.id = true
      · rw [if_pos hc]
        rfl
      · rw [if_neg hc]
    constructor
    · refine ⟨?_, ?_, ?_, ?_, ?_⟩
      · intro p hp
        rw [hplans] at hp
        obtain ⟨q, hq, hqe⟩ := List.mem_map.mp hp
        have hid : p.id = q.id := by
          subst hqe
          by_cases ht : touchedB db ids q.id = true
          · rw [if_pos ht]
            rfl
          · rw [if_neg ht]
        rw [hid, h3]
        exact hpb q hq
      · intro t ht
        rw [h2] at ht
        obtain ⟨u, hu, hue⟩ := List.mem_map.mp ht
        have hid : t.id = u.id := by
          subst hue
          by_cases hc : ids.contains u.id = true
          · rw [if_pos hc]
            rfl
          · rw [if_neg hc]
        rw [hid, h4]
        exact htb u hu
      · intro t ht
        rw [h2] at ht
        obtain ⟨u, hu, hue⟩ := List.mem_map.mp ht
        have hid : t.plan_id = u.plan_id := by
          subst hue
          by_cases hc : ids.contains u.id = true
          · rw [if_pos hc]
            rfl
          · rw [if_neg hc]
        rw [hid, h3]
        exact hplb u hu
      · rw [hplanids]
        exact hndp
      · rw [htaskids]
        exact hndt
    · intro p' hp'
      rw [hplans] at hp'
      obtain ⟨q, hq, hqe⟩ := List.mem_map.mp hp'
      by_cases ht : touchedB db ids q.id = true
      · rw [if_pos ht] at hqe
        subst hqe
        refine ⟨Int.natCast_nonneg _, ?_, ?_⟩
        · exact Int.ofNat_le.mpr (List.length_filter_le _ _)
        · unfold nonDeletedCount
          rw [h2]
          rfl
      · rw [if_neg ht] at hqe
        subst hqe
        obtain ⟨h0, h1, hcount⟩ := hinv q hq
        refine ⟨h0, h1, ?_⟩
        have hcnt : nonDeletedCount (update_task_status db ut pt ids st).1 q.id
            = nonDeletedCount db q.id := by
          unfold nonDeletedCount
          rw [h2]
          congr 1
          apply filter_length_map_eq
          intro t htm
          by_cases hc : ids.contains t.id = true
          · rw [if_pos hc]
            have hne : t.plan_id ≠ q.id := by
              intro heq
              apply ht
              exact List.any_eq_true.mpr ⟨t, htm, by simp [heq, contains_iff.mp hc]⟩
            have hb : (t.plan_id == q.id) = false := beq_eq_false_iff_ne.mpr hne
            show ((updTaskRow ut st t).plan_id == q.id
                && !((updTaskRow ut st t).status == TaskStatus.deleted)) = _
            have hb2 : ((updTaskRow ut st t).plan_id == q.id) = false := hb
            rw [hb, hb2]
            simp
          · rw [if_neg hc]
        rw [hcnt]
        exact hcount
  · push_neg at h
    rw [update_task_status_no_match db ut pt ids st h]
    exact ⟨hwf, hinv⟩

theorem mkTaskRows_ids (pid tid0 now : Nat) :
    ∀ (ts : List Task) (i : Nat),
      (mkTaskRows pid tid0 now i ts).map (fun r => r.id)
        = List.range' (tid0 + i) ts.length := by
  intro ts
  induction ts with
  | nil => intro i; rfl
  | cons t rest ih =>
    intro i
    simp only [mkTaskRows, List.map_cons, List.length_cons, ih (i + 1)]
    have harith : tid0 + (i + 1) = tid0 + i + 1 := by omega
    rw [harith]
    rfl

theorem mkTaskRows_not_deleted (pid tid0 now : Nat) :
    ∀ (ts : List Task) (i : Nat), (∀ t ∈ ts, t.status ≠ TaskStatus.deleted) →
      ∀ r ∈ mkTaskRows pid tid0 now i ts, r.status ≠ TaskStatus.deleted := by
  intro ts
  induction ts with
  | nil =>
    intro i _ r hr
    simp [mkTaskRows] at hr
  | cons t rest ih =>
    intro i hno r hr
    rcases List.mem_cons.mp hr with hh | hh
    · subst hh
      exact hno t (List.mem_cons_self t rest)
    · exact ih (i + 1) (fun u hu => hno u (List.mem_cons_of_mem t hu)) r hh

theorem inv_create_plan (db : DB) (now : Nat) (p : Plan)
    (hwf : dbWF db) (hinv : planInv db)
    (hnodel : ∀ t ∈ p.tasks, t.status ≠ TaskStatus.deleted) :
    dbWF (create_plan db now p).1 ∧ planInv (create_plan db now p).1 := by
  obtain ⟨hpb, htb, hplb, hndp, hndt⟩ := hwf
  have hplid : ∀ r ∈ mkTaskRows db.next_plan_id db.next_task_id now 0 p.tasks,
      r.plan_id = db.next_plan_id :=
    mkTaskRows_plan_id db.next_plan_id db.next_task_id now p.tasks 0
  have hrowids : (mkTaskRows db.next_plan_id db.next_task_id now 0 p.tasks).map
      (fun r => r.id) = List.range' db.next_task_id p.tasks.length := by
    rw [mkTaskRows_ids db.next_plan_id db.next_task_id now p.tasks 0, Nat.add_zero]
  set newRow : PlanRow :=
    { id := db.next_plan_id, title := p.title, description := p.description,
      category := p.category, goal := p.goal, status := p.status,
      total_tasks := (p.tasks.length : Int), completed_tasks := 0,
      created_at := now, updated_at := now } with hnewRow
  have hplans : (create_plan db now p).1.plans = db.plans ++ [newRow] := rfl
  have htasks : (create_plan db now p).1.tasks
      = db.tasks ++ mkTaskRows db.next_plan_id db.next_task_id now 0 p.tasks := rfl
  have hnp : (create_plan db now p).1.next_plan_id = db.next_plan_id + 1 := rfl
  have hnt : (create_plan db now p).1.next_task_id
      = db.next_task_id + p.tasks.length := rfl
  constructor
  · refine ⟨?_, ?_, ?_, ?_, ?_⟩
    · intro q hq
      rw [hplans] at hq
      rw [hnp]
      rcases List.mem_append.mp hq with hh | hh
      · have := hpb q hh
        omega
      · simp only [List.mem_singleton] at hh
        subst hh
        show db.next_plan_id < db.next_plan_id + 1
        omega
    · intro r hr
      rw [htasks] at hr
      rw [hnt]
      rcases List.mem_append.mp hr with hh | hh
      · have := htb r hh
        omega
      · have hmem : r.id ∈ List.range' db.next_task_id p.tasks.length := by
          rw [← hrowids]
          exact List.mem_map_of_mem _ hh
        have := List.mem_range'_1.mp hmem
        omega
    · intro r hr
      rw [htasks] at hr
      rw [hnp]
      rcases List.mem_append.mp hr with hh | hh
      · have := hplb r hh
        omega
      · rw [hplid r hh]
        omega
    · rw [hplans, List.map_append]
      apply List.Nodup.append hndp (by simp)
      intro a ha hb
      simp only [List.map_cons, List.map_nil, List.mem_singleton] at hb
      obtain ⟨q, hq, hqe⟩ := List.mem_map.mp ha
      have := hpb q hq
      have hbid : a = db.next_plan_id := hb
      omega
    · rw [htasks, List.map_append, hrowids]
      apply List.Nodup.append hndt (nodup_range' _ _)
      intro a ha hb
      obtain ⟨t, htm, hte⟩ := List.mem_map.mp ha
      have h1 := htb t htm
      have h2 := (List.mem_range'_1.mp hb).1
      omega
  · intro q hq
    rw [hplans] at hq
    rcases List.mem_append.mp hq with hh | hh
    · obtain ⟨h0, h1, hcnt⟩ := hinv q hh
      refine ⟨h0, h1, ?_⟩
      have hnil : (mkTaskRows db.next_plan_id db.next_task_id now 0 p.tasks).filter
          (fun t => t.plan_id == q.id && !(t.status == TaskStatus.deleted)) = [] := by
        rw [List.filter_eq_nil_iff]
        intro r hr hcond
        have hpl := hplid r hr
        have hlt := hpb q hh
        have heq : r.plan_id = q.id := by
          simp only [Bool.and_eq_true, beq_iff_eq] at hcond
          exact hcond.1
        omega
      rw [hcnt]
      unfold nonDeletedCount
      congr 1
      rw [htasks, List.filter_append, hnil, List.append_nil]
    · simp only [List.mem_singleton] at hh
      subst hh
      refine ⟨le_refl 0, Int.natCast_nonneg _, ?_⟩
      show ((p.tasks.length : Nat) : Int) = _
      unfold nonDeletedCount
      congr 1
      have hnil : db.tasks.filter
          (fun t => t.plan_id == db.next_plan_id
            && !(t.status == TaskStatus.deleted)) = [] := by
        rw [List.filter_eq_nil_iff]
        intro t ht hcond
        have := hplb t ht
        have heq : t.plan_id = db.next_plan_id := by
          simp only [Bool.and_eq_true, beq_iff_eq] at hcond
          exact hcond.1
        omega
      have hall : (mkTaskRows db.next_plan_id db.next_task_id now 0 p.tasks).filter
          (fun t => t.plan_id == db.next_plan_id
            && !(t.status == TaskStatus.deleted))
          = mkTaskRows db.next_plan_id db.next_task_id now 0 p.tasks := by
        apply List.filter_eq_self.mpr
        intro r hr
        have h1 := hplid r hr
        have h2 := mkTaskRows_not_deleted db.next_plan_id db.next_task_id now
          p.tasks 0 hnodel r hr
        simp [h1, h2]
      rw [htasks, List.filter_append, hnil, hall, List.nil_append,
        mkTaskRows_length db.next_plan_id db.next_task_id now p.tasks 0]

theorem mkAddedRows_plan_id (pid tid0 now : Nat) (mi : Int) :
    ∀ (ts : List Task) (i : Nat), ∀ r ∈ mkAddedRows pid tid0 now mi i ts,
      r.plan_id = pid := by
  intro ts
  induction ts with
  | nil =>
    intro i r hr
    simp [mkAddedRows] at hr
  | cons t rest ih =>
    intro i r hr
    rcases List.mem_cons.mp hr with hh | hh
    · subst hh; rfl
    · exact ih (i + 1) r hh

theorem mkAddedRows_ids (pid tid0 now : Nat) (mi : Int) :
    ∀ (ts : List Task) (i : Nat),
      (mkAddedRows pid tid0 now mi i ts).map (fun r => r.id)
        = List.range' (tid0 + i) ts.length := by
  intro ts
  induction ts with
  | nil => intro i; rfl
  | cons t rest ih =>
    intro i
    simp only [mkAddedRows, List.map_cons, List.length_cons, ih (i + 1)]
    have harith : tid0 + (i + 1) = tid0 + i + 1 := by omega
    rw [harith]
    rfl

theorem mkAddedRows_length (pid tid0 now : Nat) (mi : Int) :
    ∀ (ts : List Task) (i : Nat), (mkAddedRows pid tid0 now mi i ts).length
      = ts.length := by
  intro ts
  induction ts with
  | nil => intro i; rfl
  | cons t rest ih =>
    intro i
    simp only [mkAddedRows, List.length_cons, ih (i + 1)]

theorem inv_add_tasks (db : DB) (now pt : Nat) (pid : Nat) (new_tasks : List Task)
    (hwf : dbWF db) (hinv : planInv db) (hex : ∃ q ∈ db.plans, q.id = pid) :
    dbWF (add_tasks_to_plan db now pt pid new_tasks).1 ∧
    planInv (add_tasks_to_plan db now pt pid new_tasks).1 := by
  obtain ⟨hpb, htb, hplb, hndp, hndt⟩ := hwf
  obtain ⟨q0, hq0, hq0id⟩ := hex
  have hpidlt : pid < db.next_plan_id := hq0id ▸ hpb q0 hq0
  set mi := pyMaxOrNeg1 (maxOrderIndex db pid) with hmi
  set added := mkAddedRows pid db.next_task_id now mi 0 new_tasks with hadded
  set db1 : DB :=
    { db with
      tasks := db.tasks ++ added
      next_task_id := db.next_task_id + new_tasks.length } with hdb1
  have hres : (add_tasks_to_plan db now pt pid new_tasks).1
      = update_plan_progress pt pid db1 := rfl
  have hrtasks : (add_tasks_to_plan db now pt pid new_tasks).1.tasks
      = db.tasks ++ added := rfl
  have hrnp : (add_tasks_to_plan db now pt pid new_tasks).1.next_plan_id
      = db.next_plan_id := rfl
  have hrnt : (add_tasks_to_plan db now pt pid new_tasks).1.next_task_id
      = db.next_task_id + new_tasks.length := rfl
  have hd1nd : (db1.plans.map (fun p => p.id)).Nodup := hndp
  have hrplans : (add_tasks_to_plan db now pt pid new_tasks).1.plans
      = db.plans.map
          (fun p => if p.id = pid then recomputeRow db1.tasks pt p else p) := by
    rw [hres, update_plan_progress_plans pt pid db1 hd1nd]
  have haddpl : ∀ r ∈ added, r.plan_id = pid :=
    mkAddedRows_plan_id pid db.next_task_id now mi new_tasks 0
  have haddids : added.map (fun r => r.id)
      = List.range' db.next_task_id new_tasks.length := by
    rw [hadded, mkAddedRows_ids pid db.next_task_id now mi new_tasks 0, Nat.add_zero]
  constructor
  · refine ⟨?_, ?_, ?_, ?_, ?_⟩
    · intro q hq
      rw [hrplans] at hq
      rw [hrnp]
      obtain ⟨q', hq', hqe⟩ := List.mem_map.mp hq
      have hid : q.id = q'.id := by
        subst hqe
        by_cases hp : q'.id = pid
        · rw [if_pos hp]; rfl
        · rw [if_neg hp]
      rw [hid]
      exact hpb q' hq'
    · intro r hr
      rw [hrtasks] at hr
      rw [hrnt]
      rcases List.mem_append.mp hr with hh | hh
      · have := htb r hh
        omega
      · have hmem : r.id ∈ List.range' db.next_task_id new_tasks.length := by
          rw [← haddids]
          exact List.mem_map_of_mem _ hh
        have := List.mem_range'_1.mp hmem
        omega
    · intro r hr
      rw [hrtasks] at hr
      rw [hrnp]
      rcases List.mem_append.mp hr with hh | hh
      · exact hplb r hh
      · rw [haddpl r hh]
        exact hpidlt
    · rw [hrplans,
        ids_map_if db.plans (fun i => i = pid) _ (recomputeRow_id db1.tasks pt)]
      exact hndp
    · rw [hrtasks, List.map_append, haddids]
      apply List.Nodup.append hndt (nodup_range' _ _)
      intro a ha hb
      obtain ⟨t, htm, hte⟩ := List.mem_map.mp ha
      have h1 := htb t htm
      have h2 := (List.mem_range'_1.mp hb).1
      omega
  · intro p' hp'
    rw [hrplans] at hp'
    obtain ⟨q, hq, hqe⟩ := List.mem_map.mp hp'
    by_cases hp : q.id = pid
    · rw [if_pos hp] at hqe
      subst hqe
      refine ⟨Int.natCast_nonneg _, Int.ofNat_le.mpr (List.length_filter_le _ _), ?_⟩
      unfold nonDeletedCount
      rw [hrtasks]
      rfl
    · rw [if_neg hp] at hqe
      subst hqe
      obtain ⟨h0, h1, hcnt⟩ := hinv q hq
      refine ⟨h0, h1, ?_⟩
      rw [hcnt]
      unfold nonDeletedCount
      congr 1
      rw [hrtasks, List.filter_append]
      have hnil : added.filter
          (fun t => t.plan_id == q.id && !(t.status == TaskStatus.deleted)) = [] := by
        rw [List.filter_eq_nil_iff]
        intro r hr hcond
        have hpl := haddpl r hr
        have heq : r.plan_id = q.id := by
          simp only [Bool.and_eq_true, beq_iff_eq] at hcond
          exact hcond.1
        exact hp (by rw [← heq, hpl])
      rw [hnil, List.append_nil]

theorem updateFirstPlan_mem {l : List PlanRow} {pid : Nat} {f : PlanRow → PlanRow}
    {q : PlanRow} (hq : q ∈ updateFirstPlan pid f l) :
    q ∈ l ∨ ∃ q0 ∈ l, q0.id = pid ∧ q = f q0 := by
  induction l with
  | nil => simp [updateFirstPlan] at hq
  | cons p ps ih =>
    by_cases hp : p.id = pid
    · rw [updateFirstPlan, if_pos hp] at hq
      rcases List.mem_cons.mp hq with hh | hh
      · exact Or.inr ⟨p, List.mem_cons_self p ps, hp, hh⟩
      · exact Or.inl (List.mem_cons_of_mem p hh)
    · rw [updateFirstPlan, if_neg hp] at hq
      rcases List.mem_cons.mp hq with hh | hh
      · exact Or.inl (hh ▸ List.mem_cons_self p ps)
      · rcases ih hh with hh2 | ⟨q0, hq0, hq0e⟩
        · exact Or.inl (List.mem_cons_of_mem p hh2)
        · exact Or.inr ⟨q0, List.mem_cons_of_mem p hq0, hq0e⟩

theorem inv_update_plan_info (db : DB) (now pid : Nat)
    (title description : Option String) (hwf : dbWF db) (hinv : planInv db) :
    dbWF (update_plan_info db now pid title description).1 ∧
    planInv (update_plan_info db now pid title description).1 := by
  cases hf : db.plans.find? (fun p => p.id == pid) with
  | none =>
    have hres : update_plan_info db now pid title description = (db, false) := by
      unfold update_plan_info
      rw [hf]
    rw [hres]
    exact ⟨hwf, hinv⟩
  | some pm =>
    obtain ⟨hpb, htb, hplb, hndp, hndt⟩ := hwf
    set f : PlanRow → PlanRow := fun p =>
      let p1 := if pyTruthyOptStr title then { p with title := title.getD p.title }
        else p
      let p2 := if description.isSome then { p1 with description := description }
        else p1
      { p2 with updated_at := now } with hfdef
    have hres : (update_plan_info db now pid title description).1
        = { db with plans := updateFirstPlan pid f db.plans } := by
      unfold update_plan_info
      rw [hf]
    have hfields : ∀ p, (f p).id = p.id ∧ (f p).total_tasks = p.total_tasks ∧
        (f p).completed_tasks = p.completed_tasks := by
      intro p
      by_cases h1 : pyTruthyOptStr title = true <;>
        by_cases h2 : description.isSome = true <;>
          simp [hfdef, h1, h2]
    have hplans : (update_plan_info db now pid title description).1.plans
        = db.plans.map (fun p => if p.id = pid then f p else p) := by
      rw [hres]
      exact updateFirstPlan_eq_map hndp
    have htasks : (update_plan_info db now pid title description).1.tasks
        = db.tasks := by rw [hres]
    have hnp : (update_plan_info db now pid title description).1.next_plan_id
        = db.next_plan_id := by rw [hres]
    have hnt : (update_plan_info db now pid title description).1.next_task_id
        = db.next_task_id := by rw [hres]
    constructor
    · refine ⟨?_, ?_, ?_, ?_, ?_⟩
      · intro q hq
        rw [hplans] at hq
        rw [hnp]
        obtain ⟨q', hq', hqe⟩ := List.mem_map.mp hq
        have hid : q.id = q'.id := by
          subst hqe
          by_cases hp : q'.id = pid
          · rw [if_pos hp]
            exact (hfields q').1
          · rw [if_neg hp]
        rw [hid]
        exact hpb q' hq'
      · intro t ht
        rw [htasks] at ht
        rw [hnt]
        exact htb t ht
      · intro t ht
        rw [htasks] at ht
        rw [hnp]
        exact hplb t ht
      · rw [hplans, ids_map_if db.plans (fun i => i = pid) f
          (fun p => (hfields p).1)]
        exact hndp
      · rw [htasks]
        exact hndt
    · intro q' hq'
      rw [hplans] at hq'
      obtain ⟨q, hq, hqe⟩ := List.mem_map.mp hq'
      have hcnt0 : nonDeletedCount (update_plan_info db now pid title description).1
          = nonDeletedCount db := by
        unfold nonDeletedCount
        funext i
        rw [htasks]
      by_cases hp : q.id = pid
      · rw [if_pos hp] at hqe
        subst hqe
        obtain ⟨h0, h1, hcnt⟩ := hinv q hq
        obtain ⟨hid, htot, hcom⟩ := hfields q
        refine ⟨by rw [hcom]; exact h0, by rw [hcom, htot]; exact h1, ?_⟩
        rw [htot, hid, hcnt0]
        exact hcnt
      · rw [if_neg hp] at hqe
        subst hqe
        obtain ⟨h0, h1, hcnt⟩ := hinv q hq
        refine ⟨h0, h1, ?_⟩
        rw [hcnt0]
        exact hcnt

theorem inv_delete_plan (db : DB) (pid : Nat) (hwf : dbWF db) (hinv : planInv db) :
    dbWF (delete_plan db pid).1 ∧ planInv (delete_plan db pid).1 := by
  cases hf : db.plans.find? (fun p => p.id == pid) with
  | none =>
    have hres : delete_plan db pid = (db, false) := by
      unfold delete_plan
      rw [hf]
    rw [hres]
    exact ⟨hwf, hinv⟩
  | some pm =>
    obtain ⟨hpb, htb, hplb, hndp, hndt⟩ := hwf
    have hres : (delete_plan db pid).1
        = { db with plans := db.plans.eraseP (fun p => p.id == pid),
                    tasks := db.tasks.filter (fun t => !(t.plan_id == pid)) } := by
      unfold delete_plan
      rw [hf]
    have hmemp := List.mem_of_find?_eq_some hf
    have hppm := List.find?_some hf
    obtain ⟨a, l1, l2, hl1, hpa, hsplit, herase⟩ :=
      List.exists_of_eraseP (p := fun q => q.id == pid) hmemp hppm
    have haid : a.id = pid := by simpa using hpa
    have hplans : (delete_plan db pid).1.plans = l1 ++ l2 := by
      rw [hres]
      exact herase
    have htasks : (delete_plan db pid).1.tasks
        = db.tasks.filter (fun t => !(t.plan_id == pid)) := by rw [hres]
    have hnp : (delete_plan db pid).1.next_plan_id = db.next_plan_id := by rw [hres]
    have hnt : (delete_plan db pid).1.next_task_id = db.next_task_id := by rw [hres]
    have hsub : l1 ++ l2 ⊆ db.plans := by
      intro x hx
      rw [hsplit]
      rcases List.mem_append.mp hx with hh | hh
      · exact List.mem_append.mpr (Or.inl hh)
      · exact List.mem_append.mpr (Or.inr (List.mem_cons_of_mem a hh))
    have hslist : List.Sublist (l1 ++ l2) db.plans := by
      rw [hsplit]
      exact (List.sublist_cons_self a l2).append_left l1
    have hnotpid : ∀ q ∈ l1 ++ l2, q.id ≠ pid := by
      have hnd2 : ((l1 ++ a :: l2).map (fun p => p.id)).Nodup := by
        rw [← hsplit]
        exact hndp
      rw [List.map_append, List.map_cons] at hnd2
      intro q hq hqe
      rcases List.mem_append.mp hq with hh | hh
      · have hdisj := (List.nodup_append.mp hnd2).2.2
        exact hdisj (List.mem_map_of_mem _ hh)
          (by rw [hqe, ← haid]; exact List.mem_cons_self _ _)
      · have hcons : (a.id :: l2.map (fun p => p.id)).Nodup :=
          (List.nodup_append.mp hnd2).2.1
        have := (List.nodup_cons.mp hcons).1
        apply this
        rw [← haid] at hqe
        rw [← hqe]
        exact List.mem_map_of_mem _ hh
    constructor
    · refine ⟨?_, ?_, ?_, ?_, ?_⟩
      · intro q hq
        rw [hplans] at hq
        rw [hnp]
        exact hpb q (hsub hq)
      · intro t ht
        rw [htasks] at ht
        rw [hnt]
        exact htb t (List.mem_of_mem_filter ht)
      · intro t ht
        rw [htasks] at ht
        rw [hnp]
        exact hplb t (List.mem_of_mem_filter ht)
      · rw [hplans]
        exact hndp.sublist (hslist.map (fun p => p.id))
      · rw [htasks]
        exact hndt.sublist
          (List.Sublist.map (fun t => t.id) (List.filter_sublist db.tasks))
    · intro q hq
      rw [hplans] at hq
      obtain ⟨h0, h1, hcnt⟩ := hinv q (hsub hq)
      refine ⟨h0, h1, ?_⟩
      rw [hcnt]
      unfold nonDeletedCount
      congr 1
      rw [htasks, List.filter_filter]
      congr 1
      apply List.filter_congr
      intro t _
      by_cases hx : (t.plan_id == q.id && !(t.status == TaskStatus.deleted)) = true
      · have hne : (t.plan_id == pid) = false := by
          have heq : t.plan_id = q.id := by
            simp only [Bool.and_eq_true, beq_iff_eq] at hx
            exact hx.1
          apply beq_eq_false_iff_ne.mpr
          rw [heq]
          exact hnotpid q hq
        rw [hx, hne]
        simp
      · simp only [Bool.not_eq_true] at hx
        rw [hx]
        simp

/-- The input plan whose single task already has status `deleted`. -/
def c1BadPlan : Plan :=
  { title := "T", category := .project, goal := "g",
    tasks := [{ plan_id := 0, title := "A", status := .deleted }] }

/-- C1 counterexample: `createPlan` sets `total_tasks = len(tasks)`
counting deleted-status input tasks, so a plan created from one
deleted-status task is stored with `total_tasks = 1` while it owns zero
non-deleted tasks — the invariant is violated immediately after this
store mutation. -/
theorem c1_counterexample :
    ((create_plan emptyDB 0 c1BadPlan).1.plans.map (fun p => p.total_tasks) = [1]) ∧
    nonDeletedCount (create_plan emptyDB 0 c1BadPlan).1 1 = 0 ∧
    ¬ planInv (create_plan emptyDB 0 c1BadPlan).1 :=
  ⟨by decide, by decide, by decide⟩

/-- C1 amended: the fresh store satisfies the invariant, and every store
mutation preserves `0 ≤ completed_tasks ≤ total_tasks` together with
`total_tasks = count of the plan's non-deleted owned tasks` for every
plan at rest — provided `createPlan` is not fed a task already in
`deleted` status (which the generation pipeline never produces, but which
would break the count as the counterexample shows), and
`addTasksToPlan` targets an existing plan id. Structural well-formedness
(unique ids below the autoincrement counters) is preserved alongside. -/
theorem c1_invariant_preservation (db : DB) (hwf : dbWF db) (hinv : planInv db) :
    (dbWF emptyDB ∧ planInv emptyDB) ∧
    (∀ (now : Nat) (p : Plan), (∀ t ∈ p.tasks, t.status ≠ TaskStatus.deleted) →
      dbWF (create_plan db now p).1 ∧ planInv (create_plan db now p).1) ∧
    (∀ (ut pt : Nat) (ids : List Nat) (st : TaskStatus),
      dbWF (update_task_status db ut pt ids st).1 ∧
      planInv (update_task_status db ut pt ids st).1) ∧
    (∀ (now pt pid : Nat) (ts : List Task), (∃ q ∈ db.plans, q.id = pid) →
      dbWF (add_tasks_to_plan db now pt pid ts).1 ∧
      planInv (add_tasks_to_plan db now pt pid ts).1) ∧
    (∀ (now pid : Nat) (t d : Option String),
      dbWF (update_plan_info db now pid t d).1 ∧
      planInv (update_plan_info db now pid t d).1) ∧
    (∀ pid : Nat, dbWF (delete_plan db pid).1 ∧ planInv (delete_plan db pid).1) := by
  refine ⟨⟨by decide, by decide⟩, ?_, ?_, ?_, ?_, ?_⟩
  · intro now p h
    exact inv_create_plan db now p hwf hinv h
  · intro ut pt ids st
    exact inv_update_task_status db ut pt ids st hwf hinv
  · intro now pt pid ts hex
    exact inv_add_tasks db now pt pid ts hwf hinv hex
  · intro now pid t d
    exact inv_update_plan_info db now pid t d hwf hinv
  · intro pid
    exact inv_delete_plan db pid hwf hinv

/-- C1 witness: the preservation statement applied at the concrete store
`exDB`, for a completed-status bulk update and a task addition. -/
theorem c1_witness :
    planInv (update_task_status exDB 7 8 [1] .completed).1 ∧
    planInv (add_tasks_to_plan exDB 9 9 1
      [{ plan_id := 1, title := "New Task", priority := .low }]).1 ∧
    planInv (delete_plan exDB 1).1 := by
  refine ⟨?_, ?_, ?_⟩
  · exact ((c1_invariant_preservation exDB (by decide) (by decide)).2.2.1
      7 8 [1] .completed).2
  · exact ((c1_invariant_preservation exDB (by decide) (by decide)).2.2.2.1
      9 9 1 [{ plan_id := 1, title := "New Task", priority := .low }]
      (by decide)).2
  · exact ((c1_invariant_preservation exDB (by decide) (by decide)).2.2.2.2.2 1).2

end Planer
